import Mathlib

/-! LRU cache simulator: embedding of `LRU_Cache_Simulator.cpp`.

The class `LRUCache` keeps a `std::list<CacheBlock>` (front = most recent) and an
`std::unordered_map<int, list<CacheBlock>::iterator>`.  The embedding keeps both:

* a list node is a block together with a handle (`Node.it`), the value an iterator
  to that node has; `end()` is the handle `0`, and `push_front` allocates a handle
  that no live node has;
* the map is a partial function from addresses to handles;
* operations whose behaviour C++ leaves undefined (`back()` on an empty list,
  dereferencing or erasing through an iterator that designates no node) make
  `access` return `none`.

Integers: `int` is 32 bits, and arithmetic on `int` is two's complement
wrap-around (`wrap32`), which is what the compiled program computes: the product
`address * 10` and the increments of the three counters `hits`, `misses` and
`totalAccesses` are reduced to 32 bits.  The comparison
`cacheList.size() >= capacity` converts `capacity` to `size_t` (`toSizeT`, 64 bits).
-/

namespace LRUSim

/-- Largest value of a 32-bit `int`. -/
def INT_MAX : Int := 2147483647

/-- Smallest value of a 32-bit `int`. -/
def INT_MIN : Int := -2147483648

/-- Two's complement reduction of a mathematical integer to a 32-bit `int`. -/
def wrap32 (x : Int) : Int := (x + 2147483648) % 4294967296 - 2147483648

/-- Conversion of an `int` to `size_t` (64 bits), as the usual arithmetic
conversions do in `cacheList.size() >= capacity`. -/
def toSizeT (x : Int) : Nat := (x % 18446744073709551616).toNat

/-- The struct `CacheBlock`. -/
structure CacheBlock where
  address : Int
  data : Int
deriving DecidableEq, Repr

/-- A node of `std::list<CacheBlock>`: the block and the handle that an iterator to
this node holds. -/
structure Node where
  it : Nat
  block : CacheBlock
deriving DecidableEq, Repr

/-- The data members of class `LRUCache`. -/
structure LRUCache where
  capacity : Int
  hits : Int
  misses : Int
  totalAccesses : Int
  cacheList : List Node
  cacheMap : Int → Option Nat

/-- The iterator `end()`. -/
def listEnd : Nat := 0

/-- A handle for a newly allocated node: different from `end()` and from the handle
of every node of the list. -/
def freshIt : List Node → Nat
  | [] => 1
  | n :: l => max (n.it + 1) (freshIt l)

/-- The iterator `begin()`: the handle of the first node, `end()` on an empty list. -/
def listBegin : List Node → Nat
  | [] => listEnd
  | n :: _ => n.it

/-- Dereference `*it`: the block of the node the iterator designates, `none` when it
designates no node of the list. -/
def listDeref : List Node → Nat → Option CacheBlock
  | [], _ => none
  | n :: l, i => if n.it = i then some n.block else listDeref l i

/-- The call `erase(it)`: the list without the node the iterator designates. -/
def listErase : List Node → Nat → List Node
  | [], _ => []
  | n :: l, i => if n.it = i then l else n :: listErase l i

/-- The call `push_front(block)`: a new node in front. -/
def pushFront (l : List Node) (b : CacheBlock) : List Node :=
  ⟨freshIt l, b⟩ :: l

/-- The call `cacheMap[address] = it`. -/
def mapAssign (m : Int → Option Nat) (address : Int) (i : Nat) : Int → Option Nat :=
  fun a => if a = address then some i else m a

/-- The call `cacheMap.erase(address)`. -/
def mapErase (m : Int → Option Nat) (address : Int) : Int → Option Nat :=
  fun a => if a = address then none else m a

/-- The line that `access` prints: a hit with address and data, or a miss with
address, the evicted address if there was an eviction, and the loaded value. -/
inductive Event where
  | hit (address : Int) (data : Int)
  | miss (address : Int) (evicted : Option Int) (loaded : Int)
deriving DecidableEq, Repr

/-- What a call of `access` produces: the returned integer, the printed line and the
state after the call. -/
structure Outcome where
  value : Int
  event : Event
  state : LRUCache

/-- The constructor `LRUCache(int size)`. -/
def LRUCache.new (size : Int) : LRUCache :=
  { capacity := size, hits := 0, misses := 0, totalAccesses := 0,
    cacheList := [], cacheMap := fun _ => none }

/-- The member function `LRUCache::access(int address, int data)`; the default
argument of the source is `data = -1`. -/
def LRUCache.access (s : LRUCache) (address : Int) (data : Int) : Option Outcome :=
  let s := { s with totalAccesses := wrap32 (s.totalAccesses + 1) }
  match s.cacheMap address with
  | some it =>
    let s := { s with hits := wrap32 (s.hits + 1) }
    match listDeref s.cacheList it with
    | none => none
    | some block =>
      let l := pushFront (listErase s.cacheList it) block
      let m := mapAssign s.cacheMap address (listBegin l)
      some ⟨block.data, Event.hit address block.data,
        { s with cacheList := l, cacheMap := m }⟩
  | none =>
    let s := { s with misses := wrap32 (s.misses + 1) }
    let evicted : Option (Option Int × LRUCache) :=
      if s.cacheList.length ≥ toSizeT s.capacity then
        match s.cacheList.getLast? with
        | none => none
        | some n =>
          let evictedAddr := n.block.address
          some (some evictedAddr,
            { s with cacheMap := mapErase s.cacheMap evictedAddr,
                     cacheList := s.cacheList.dropLast })
      else some (none, s)
    match evicted with
    | none => none
    | some (ev, s) =>
      let value := if data = -1 then wrap32 (address * 10) else data
      let l := pushFront s.cacheList ⟨address, value⟩
      let m := mapAssign s.cacheMap address (listBegin l)
      some ⟨value, Event.miss address ev value,
        { s with cacheList := l, cacheMap := m }⟩

/-- The member function `LRUCache::reset()`. -/
def LRUCache.reset (s : LRUCache) : LRUCache :=
  { s with hits := 0, misses := 0, totalAccesses := 0,
           cacheList := [], cacheMap := fun _ => none }

/-- What `displayCache` walks through: the blocks from most to least recent. -/
def LRUCache.snapshot (s : LRUCache) : List CacheBlock :=
  s.cacheList.map Node.block

/-- A call made by a driver (`runDemo`, `interactiveMode`). -/
inductive Op where
  | access (address : Int) (data : Int)
  | reset
deriving DecidableEq, Repr

/-- One call on a state; `none` when the call has no defined behaviour. -/
def step (s : LRUCache) : Op → Option LRUCache
  | Op.access a d => (s.access a d).map Outcome.state
  | Op.reset => some s.reset

/-- A sequence of calls, from left to right. -/
def run (s : LRUCache) : List Op → Option LRUCache
  | [] => some s
  | op :: ops => (step s op).bind (fun t => run t ops)

/-- States a driver can reach from `LRUCache(c)`. -/
def Reachable (c : Int) (s : LRUCache) : Prop :=
  ∃ ops, run (LRUCache.new c) ops = some s

/-- The integers that the `access` calls of a sequence of calls return, in order. -/
def runValues (s : LRUCache) : List Op → Option (List Int)
  | [] => some []
  | Op.access a d :: ops =>
    (s.access a d).bind (fun o => (runValues o.state ops).map (fun vs => o.value :: vs))
  | Op.reset :: ops => runValues s.reset ops

/-- What the class maintains between calls: handles and addresses of the nodes are
pairwise different, the map holds exactly the handles of the nodes under their
addresses, the list is no longer than the converted capacity, and the counters
add up as 32-bit integers. -/
structure Inv (s : LRUCache) : Prop where
  itNodup : (s.cacheList.map Node.it).Nodup
  addrNodup : (s.cacheList.map (fun n => n.block.address)).Nodup
  mapOk : ∀ a i, s.cacheMap a = some i ↔
    ∃ n ∈ s.cacheList, n.it = i ∧ n.block.address = a
  sizeOk : s.cacheList.length ≤ toSizeT s.capacity
  counters : s.totalAccesses = wrap32 (s.hits + s.misses)

/-- The state of `LRUCache(2)` after `access(1, 10)` and `access(2, 20)`. -/
def twoBlocks : LRUCache :=
  { capacity := 2, hits := 0, misses := 2, totalAccesses := 2,
    cacheList := [⟨2, ⟨2, 20⟩⟩, ⟨1, ⟨1, 10⟩⟩],
    cacheMap := mapAssign (mapAssign (fun _ => none) 1 1) 2 2 }

/-- The state of `LRUCache(2)` after `access(1, 10)`. -/
def oneBlock : LRUCache :=
  { capacity := 2, hits := 0, misses := 1, totalAccesses := 1,
    cacheList := [⟨1, ⟨1, 10⟩⟩],
    cacheMap := mapAssign (fun _ => none) 1 1 }

/-- The lines that the `access` calls of a sequence of calls print, in order. -/
def runEvents (s : LRUCache) : List Op → Option (List Event)
  | [] => some []
  | Op.access a d :: ops =>
    (s.access a d).bind (fun o => (runEvents o.state ops).map (fun es => o.event :: es))
  | Op.reset :: ops => runEvents s.reset ops

/-- The calls that `runDemo` makes on its `LRUCache cache(4)`, in order; a call
without data argument passes the default `-1`.  The calls of `displayCache` and
`displayStats` in between change nothing and are left out. -/
def runDemo : List Op :=
  [Op.access 0x1000 100, Op.access 0x2000 200, Op.access 0x3000 300, Op.access 0x4000 400,
   Op.access 0x2000 (-1),
   Op.access 0x5000 500,
   Op.access 0x3000 (-1), Op.access 0x6000 600, Op.access 0x2000 (-1), Op.access 0x7000 700]

/-- The hit rate of `displayStats` in percent, `(double)hits / totalAccesses * 100`,
printed only when `totalAccesses > 0`; the division is taken in exact rationals in
place of `double`. -/
def LRUCache.hitRate (s : LRUCache) : Option Rat :=
  if s.totalAccesses > 0 then some ((s.hits : Rat) / (s.totalAccesses : Rat) * 100) else none

/-- The miss rate of `displayStats` in percent, `(double)misses / totalAccesses * 100`,
printed only when `totalAccesses > 0`; the division is taken in exact rationals in
place of `double`. -/
def LRUCache.missRate (s : LRUCache) : Option Rat :=
  if s.totalAccesses > 0 then some ((s.misses : Rat) / (s.totalAccesses : Rat) * 100) else none

/-- Reference model, from the words of the specification: a list of addresses in
which every address is kept only at its first position. -/
def keepFirst : List Int → List Int
  | [] => []
  | a :: l => a :: (keepFirst l).filter (fun b => decide (b ≠ a))

/-- Reference model, from the words of the specification: the first `c` elements of
the access history (given oldest first) listed most-recent-first with every address
kept only at its most recent occurrence. -/
def referenceLRU (c : Nat) (history : List Int) : List Int :=
  (keepFirst history.reverse).take c

/-- The addresses of the accesses of a sequence of calls, oldest first. -/
def accessHistory : List Op → List Int
  | [] => []
  | Op.access a _ :: ops => a :: accessHistory ops
  | Op.reset :: ops => accessHistory ops

/-- The number of `access` calls since the construction or the last `reset`, for a
sequence of calls that starts when `n` such calls have been made. -/
def sinceReset (n : Nat) : List Op → Nat
  | [] => n
  | Op.access _ _ :: ops => sinceReset (n + 1) ops
  | Op.reset :: ops => sinceReset 0 ops

/-- The counters hold, as 32-bit integers, a number of hits and a number of misses
that add up to `n`, and `totalAccesses` holds `n`. -/
def CountersOf (s : LRUCache) (n : Nat) : Prop :=
  ∃ h m : Nat, h + m = n ∧ s.hits = wrap32 h ∧ s.misses = wrap32 m ∧
    s.totalAccesses = wrap32 n

/-- The calls `access(1, 0)`, `access(2, 0)` made `k` times in turn. -/
def alternate : Nat → List Op
  | 0 => []
  | k + 1 => Op.access 1 0 :: Op.access 2 0 :: alternate k

/-! ## The list with handles -/

theorem freshIt_gt (l : List Node) : ∀ n ∈ l, n.it < freshIt l := by
  induction l with
  | nil => intro n hn; cases hn
  | cons m l ih =>
    intro n hn
    simp only [freshIt]
    rcases List.mem_cons.mp hn with rfl | h
    · omega
    · have := ih n h; omega

theorem listErase_sublist (l : List Node) (i : Nat) : (listErase l i).Sublist l := by
  induction l with
  | nil => exact List.Sublist.refl _
  | cons m l ih =>
    simp only [listErase]
    split
    · exact List.sublist_cons_self m l
    · exact ih.cons₂ m

theorem listDeref_of_mem {l : List Node} (hnd : (l.map Node.it).Nodup) {n : Node}
    (hn : n ∈ l) : listDeref l n.it = some n.block := by
  induction l with
  | nil => cases hn
  | cons m l ih =>
    simp only [List.map_cons, List.nodup_cons] at hnd
    simp only [listDeref]
    rcases List.mem_cons.mp hn with rfl | h
    · simp
    · have hne : m.it ≠ n.it := by
        intro he
        exact hnd.1 (he ▸ List.mem_map_of_mem Node.it h)
      simp [hne, ih hnd.2 h]

theorem listDeref_some {l : List Node} {i : Nat} {b : CacheBlock}
    (h : listDeref l i = some b) : (⟨i, b⟩ : Node) ∈ l := by
  induction l with
  | nil => simp [listDeref] at h
  | cons m l ih =>
    simp only [listDeref] at h
    split at h
    · next he =>
      cases h
      cases m
      simp at he
      subst he
      exact List.mem_cons_self _ _
    · exact List.mem_cons_of_mem _ (ih h)

theorem listErase_eq_filter {l : List Node} (hnd : (l.map Node.it).Nodup) (i : Nat) :
    listErase l i = l.filter (fun n => decide (n.it ≠ i)) := by
  induction l with
  | nil => rfl
  | cons m l ih =>
    simp only [List.map_cons, List.nodup_cons] at hnd
    simp only [listErase]
    split
    · next he =>
      subst he
      rw [List.filter_cons_of_neg (by simp)]
      symm
      apply List.filter_eq_self.mpr
      intro n hn
      simp only [ne_eq, decide_not, Bool.not_eq_eq_eq_not, Bool.not_true, decide_eq_false_iff_not]
      intro he
      exact hnd.1 (he ▸ List.mem_map_of_mem Node.it hn)
    · next hne =>
      rw [List.filter_cons_of_pos (by simpa using hne), ih hnd.2]

theorem listErase_length {l : List Node} {n : Node} (hn : n ∈ l) :
    (listErase l n.it).length + 1 = l.length := by
  induction l with
  | nil => cases hn
  | cons m l ih =>
    simp only [listErase]
    split
    · simp
    · next hne =>
      rcases List.mem_cons.mp hn with rfl | h
      · exact absurd rfl hne
      · simp [ih h]

/-! ## The three paths of `access` -/

theorem access_hit {s : LRUCache} {a : Int} {i : Nat} {b : CacheBlock} (d : Int)
    (hm : s.cacheMap a = some i) (hb : listDeref s.cacheList i = some b) :
    s.access a d = some ⟨b.data, Event.hit a b.data,
      { capacity := s.capacity, hits := wrap32 (s.hits + 1), misses := s.misses,
        totalAccesses := wrap32 (s.totalAccesses + 1),
        cacheList := pushFront (listErase s.cacheList i) b,
        cacheMap := mapAssign s.cacheMap a (freshIt (listErase s.cacheList i)) }⟩ := by
  simp [LRUCache.access, hm, hb, pushFront, listBegin]

theorem access_miss_room {s : LRUCache} {a : Int} (d : Int)
    (hm : s.cacheMap a = none) (hlen : s.cacheList.length < toSizeT s.capacity) :
    s.access a d = some ⟨if d = -1 then wrap32 (a * 10) else d,
      Event.miss a none (if d = -1 then wrap32 (a * 10) else d),
      { capacity := s.capacity, hits := s.hits, misses := wrap32 (s.misses + 1),
        totalAccesses := wrap32 (s.totalAccesses + 1),
        cacheList := pushFront s.cacheList ⟨a, if d = -1 then wrap32 (a * 10) else d⟩,
        cacheMap := mapAssign s.cacheMap a (freshIt s.cacheList) }⟩ := by
  have h : ¬ toSizeT s.capacity ≤ s.cacheList.length := by omega
  simp [LRUCache.access, hm, h, pushFront, listBegin]

theorem access_miss_full {s : LRUCache} {a : Int} {n : Node} (d : Int)
    (hm : s.cacheMap a = none) (hlen : toSizeT s.capacity ≤ s.cacheList.length)
    (hlast : s.cacheList.getLast? = some n) :
    s.access a d = some ⟨if d = -1 then wrap32 (a * 10) else d,
      Event.miss a (some n.block.address) (if d = -1 then wrap32 (a * 10) else d),
      { capacity := s.capacity, hits := s.hits, misses := wrap32 (s.misses + 1),
        totalAccesses := wrap32 (s.totalAccesses + 1),
        cacheList := pushFront s.cacheList.dropLast
          ⟨a, if d = -1 then wrap32 (a * 10) else d⟩,
        cacheMap := mapAssign (mapErase s.cacheMap n.block.address) a
          (freshIt s.cacheList.dropLast) }⟩ := by
  simp [LRUCache.access, hm, hlen, hlast, pushFront, listBegin]

theorem access_miss_empty {s : LRUCache} {a : Int} (d : Int)
    (hm : s.cacheMap a = none) (hlen : toSizeT s.capacity ≤ s.cacheList.length)
    (hnil : s.cacheList = []) : s.access a d = none := by
  have h0 : toSizeT s.capacity = 0 := by
    rw [hnil] at hlen
    simpa using hlen
  simp [LRUCache.access, hm, hnil, h0]

/-! ## The representation invariant -/

theorem inv_new (c : Int) : Inv (LRUCache.new c) where
  itNodup := by simp [LRUCache.new]
  addrNodup := by simp [LRUCache.new]
  mapOk := by simp [LRUCache.new]
  sizeOk := by simp [LRUCache.new]
  counters := by simp [LRUCache.new, wrap32]

theorem inv_reset (s : LRUCache) : Inv s.reset where
  itNodup := by simp [LRUCache.reset]
  addrNodup := by simp [LRUCache.reset]
  mapOk := by simp [LRUCache.reset]
  sizeOk := by simp [LRUCache.reset]
  counters := by simp [LRUCache.reset, wrap32]

theorem eq_of_it_eq {l : List Node} (hnd : (l.map Node.it).Nodup) {x y : Node}
    (hx : x ∈ l) (hy : y ∈ l) (h : x.it = y.it) : x = y :=
  List.inj_on_of_nodup_map hnd hx hy h

theorem eq_of_address_eq {l : List Node}
    (hnd : (l.map (fun n => n.block.address)).Nodup) {x y : Node}
    (hx : x ∈ l) (hy : y ∈ l) (h : x.block.address = y.block.address) : x = y :=
  List.inj_on_of_nodup_map hnd hx hy h

theorem map_none_iff {s : LRUCache} (hs : Inv s) (a : Int) :
    s.cacheMap a = none ↔ ∀ n ∈ s.cacheList, n.block.address ≠ a := by
  constructor
  · intro h n hn he
    have := (hs.mapOk a n.it).mpr ⟨n, hn, rfl, he⟩
    rw [h] at this
    cases this
  · intro h
    cases hm : s.cacheMap a with
    | none => rfl
    | some i =>
      obtain ⟨n, hn, _, he⟩ := (hs.mapOk a i).mp hm
      exact absurd he (h n hn)

theorem mem_listErase {l : List Node} (hnd : (l.map Node.it).Nodup) {i : Nat} {m : Node} :
    m ∈ listErase l i ↔ m ∈ l ∧ m.it ≠ i := by
  rw [listErase_eq_filter hnd]
  simp [List.mem_filter]

/-- The state after a hit on the node `n`. -/
theorem inv_hit {s : LRUCache} (hs : Inv s) {n : Node} (hn : n ∈ s.cacheList) :
    Inv { capacity := s.capacity, hits := wrap32 (s.hits + 1), misses := s.misses,
          totalAccesses := wrap32 (s.totalAccesses + 1),
          cacheList := pushFront (listErase s.cacheList n.it) n.block,
          cacheMap := mapAssign s.cacheMap n.block.address
            (freshIt (listErase s.cacheList n.it)) } := by
  have hsub := listErase_sublist s.cacheList n.it
  have hfresh := freshIt_gt (listErase s.cacheList n.it)
  have hnoaddr : ∀ m ∈ listErase s.cacheList n.it, m.block.address ≠ n.block.address := by
    intro m hm he
    have hm2 := (mem_listErase hs.itNodup).mp hm
    have := eq_of_address_eq hs.addrNodup hm2.1 hn he
    exact hm2.2 (this ▸ rfl)
  refine ⟨?_, ?_, ?_, ?_, ?_⟩
  · simp only [pushFront, List.map_cons, List.nodup_cons]
    refine ⟨?_, (hsub.map Node.it).nodup hs.itNodup⟩
    intro hmem
    obtain ⟨m, hm, he⟩ := List.mem_map.mp hmem
    have := hfresh m hm
    omega
  · simp only [pushFront, List.map_cons, List.nodup_cons]
    refine ⟨?_, (hsub.map _).nodup hs.addrNodup⟩
    intro hmem
    obtain ⟨m, hm, he⟩ := List.mem_map.mp hmem
    exact hnoaddr m hm he
  · intro a i
    simp only [mapAssign, pushFront, List.mem_cons]
    by_cases ha : a = n.block.address
    · subst ha
      simp only [if_true, Option.some.injEq]
      constructor
      · intro h
        exact ⟨_, Or.inl rfl, h, rfl⟩
      · rintro ⟨m, hm | hm, h1, h2⟩
        · subst hm; exact h1
        · exact absurd h2 (hnoaddr m hm)
    · simp only [if_neg ha]
      rw [hs.mapOk a i]
      constructor
      · rintro ⟨m, hm, h1, h2⟩
        refine ⟨m, Or.inr ((mem_listErase hs.itNodup).mpr ⟨hm, ?_⟩), h1, h2⟩
        intro he
        have := eq_of_it_eq hs.itNodup hm hn he
        exact ha (this ▸ h2.symm)
      · rintro ⟨m, hm | hm, h1, h2⟩
        · subst hm; exact absurd h2.symm ha
        · exact ⟨m, ((mem_listErase hs.itNodup).mp hm).1, h1, h2⟩
  · have := listErase_length hn
    have := hs.sizeOk
    simp only [pushFront, List.length_cons]
    omega
  · have := hs.counters
    simp only [wrap32] at this ⊢
    omega

theorem dropLast_concat_of_getLast? {l : List Node} {n : Node}
    (h : l.getLast? = some n) : l.dropLast ++ [n] = l :=
  List.dropLast_append_getLast? n (by simp [h])

/-- The state after the eviction of the last node `n`, before the new block is
inserted. -/
theorem inv_evict {s : LRUCache} (hs : Inv s) {n : Node}
    (hlast : s.cacheList.getLast? = some n) :
    Inv { capacity := s.capacity, hits := s.hits, misses := s.misses,
          totalAccesses := s.totalAccesses,
          cacheList := s.cacheList.dropLast,
          cacheMap := mapErase s.cacheMap n.block.address } := by
  have hl := dropLast_concat_of_getLast? hlast
  have hsub := List.dropLast_sublist s.cacheList
  have hnl : n ∈ s.cacheList := by rw [← hl]; simp
  have hnd := hs.addrNodup
  rw [← hl, List.map_append, List.nodup_append] at hnd
  have hno : ∀ m ∈ s.cacheList.dropLast, m.block.address ≠ n.block.address := by
    intro m hm he
    have h1 : m.block.address ∈ s.cacheList.dropLast.map (fun n => n.block.address) :=
      List.mem_map_of_mem (fun n => n.block.address) hm
    exact hnd.2.2 h1 (by simp [he])
  refine ⟨(hsub.map Node.it).nodup hs.itNodup, (hsub.map _).nodup hs.addrNodup, ?_, ?_,
    hs.counters⟩
  · intro a i
    simp only [mapErase]
    by_cases ha : a = n.block.address
    · subst ha
      simp only [if_true]
      constructor
      · intro h; cases h
      · rintro ⟨m, hm, _, h2⟩
        exact absurd h2 (hno m hm)
    · simp only [if_neg ha]
      rw [hs.mapOk a i]
      constructor
      · rintro ⟨m, hm, h1, h2⟩
        rw [← hl, List.mem_append] at hm
        rcases hm with hm | hm
        · exact ⟨m, hm, h1, h2⟩
        · simp only [List.mem_singleton] at hm
          subst hm
          exact absurd h2.symm ha
      · rintro ⟨m, hm, h1, h2⟩
        exact ⟨m, hsub.subset hm, h1, h2⟩
  · have := hs.sizeOk
    simp only [List.length_dropLast]
    omega

/-- The state after a miss that inserts a block for an address no node has, when
there is room for it. -/
theorem inv_insert {s : LRUCache} (hs : Inv s) {a : Int}
    (hno : ∀ n ∈ s.cacheList, n.block.address ≠ a)
    (hlen : s.cacheList.length < toSizeT s.capacity) (v : Int) :
    Inv { capacity := s.capacity, hits := s.hits, misses := wrap32 (s.misses + 1),
          totalAccesses := wrap32 (s.totalAccesses + 1),
          cacheList := pushFront s.cacheList ⟨a, v⟩,
          cacheMap := mapAssign s.cacheMap a (freshIt s.cacheList) } := by
  have hfresh := freshIt_gt s.cacheList
  refine ⟨?_, ?_, ?_, ?_, ?_⟩
  · simp only [pushFront, List.map_cons, List.nodup_cons]
    refine ⟨?_, hs.itNodup⟩
    intro hmem
    obtain ⟨m, hm, he⟩ := List.mem_map.mp hmem
    have := hfresh m hm
    omega
  · simp only [pushFront, List.map_cons, List.nodup_cons]
    refine ⟨?_, hs.addrNodup⟩
    intro hmem
    obtain ⟨m, hm, he⟩ := List.mem_map.mp hmem
    exact hno m hm he
  · intro b i
    simp only [mapAssign, pushFront, List.mem_cons]
    by_cases hb : b = a
    · subst hb
      simp only [if_true, Option.some.injEq]
      constructor
      · intro h
        exact ⟨_, Or.inl rfl, h, rfl⟩
      · rintro ⟨m, hm | hm, h1, h2⟩
        · subst hm; exact h1
        · exact absurd h2 (hno m hm)
    · simp only [if_neg hb]
      rw [hs.mapOk b i]
      constructor
      · rintro ⟨m, hm, h1, h2⟩
        exact ⟨m, Or.inr hm, h1, h2⟩
      · rintro ⟨m, hm | hm, h1, h2⟩
        · subst hm; exact absurd h2.symm hb
        · exact ⟨m, hm, h1, h2⟩
  · simp only [pushFront, List.length_cons]
    omega
  · have := hs.counters
    simp only [wrap32] at this ⊢
    omega

/-! ## `access` on states that satisfy the invariant -/

/-- A hit: the address has a node `n`; the call returns its data and moves it to the
front under a new handle. -/
theorem access_of_mem {s : LRUCache} (hs : Inv s) {n : Node} (hn : n ∈ s.cacheList)
    (d : Int) :
    s.access n.block.address d = some ⟨n.block.data,
      Event.hit n.block.address n.block.data,
      { capacity := s.capacity, hits := wrap32 (s.hits + 1), misses := s.misses,
        totalAccesses := wrap32 (s.totalAccesses + 1),
        cacheList := pushFront (listErase s.cacheList n.it) n.block,
        cacheMap := mapAssign s.cacheMap n.block.address
          (freshIt (listErase s.cacheList n.it)) }⟩ :=
  access_hit d ((hs.mapOk _ _).mpr ⟨n, hn, rfl, rfl⟩) (listDeref_of_mem hs.itNodup hn)

/-- A miss with an eviction cannot meet an empty list when the converted capacity
is positive. -/
theorem getLast?_of_full {s : LRUCache} (hpos : 0 < toSizeT s.capacity)
    (hlen : toSizeT s.capacity ≤ s.cacheList.length) :
    ∃ n, s.cacheList.getLast? = some n := by
  cases h : s.cacheList.getLast? with
  | some n => exact ⟨n, rfl⟩
  | none =>
    rw [List.getLast?_eq_none_iff] at h
    rw [h] at hlen
    simp only [List.length_nil] at hlen
    omega

theorem inv_access {s : LRUCache} (hs : Inv s) {a d : Int} {o : Outcome}
    (h : s.access a d = some o) : Inv o.state := by
  by_cases hres : ∃ n ∈ s.cacheList, n.block.address = a
  · obtain ⟨n, hn, rfl⟩ := hres
    rw [access_of_mem hs hn d] at h
    cases h
    exact inv_hit hs hn
  · have hno : ∀ n ∈ s.cacheList, n.block.address ≠ a := by
      intro n hn he
      exact hres ⟨n, hn, he⟩
    have hm := (map_none_iff hs a).mpr hno
    by_cases hlen : toSizeT s.capacity ≤ s.cacheList.length
    · cases hl : s.cacheList.getLast? with
      | none =>
        rw [access_miss_empty d hm hlen (List.getLast?_eq_none_iff.mp hl)] at h
        cases h
      | some n =>
        rw [access_miss_full d hm hlen hl] at h
        cases h
        have hnl : n ∈ s.cacheList := by
          rw [← dropLast_concat_of_getLast? hl]; simp
        have hne : s.cacheList ≠ [] := List.ne_nil_of_mem hnl
        have hpos : 0 < s.cacheList.length := List.length_pos.mpr hne
        refine inv_insert (inv_evict hs hl) ?_ ?_ _
        · intro m hm'
          exact hno m ((List.dropLast_sublist _).subset hm')
        · have := hs.sizeOk
          simp only [List.length_dropLast]
          omega
    · rw [access_miss_room d hm (by omega)] at h
      cases h
      exact inv_insert hs hno (by omega) _

theorem access_capacity {s : LRUCache} {a d : Int} {o : Outcome}
    (h : s.access a d = some o) : o.state.capacity = s.capacity := by
  unfold LRUCache.access at h
  simp only at h
  split at h
  · split at h
    · cases h
    · cases h; rfl
  · split at h
    · cases h
    · next ev t heq =>
      cases h
      simp only
      split at heq
      · split at heq
        · cases heq
        · cases heq; rfl
      · cases heq; rfl

/-- With a positive converted capacity, `access` has a defined result on every state
that satisfies the invariant. -/
theorem access_defined {s : LRUCache} (hs : Inv s) (hpos : 0 < toSizeT s.capacity)
    (a d : Int) : ∃ o, s.access a d = some o := by
  by_cases hres : ∃ n ∈ s.cacheList, n.block.address = a
  · obtain ⟨n, hn, rfl⟩ := hres
    exact ⟨_, access_of_mem hs hn d⟩
  · have hno : ∀ n ∈ s.cacheList, n.block.address ≠ a := by
      intro n hn he
      exact hres ⟨n, hn, he⟩
    have hm := (map_none_iff hs a).mpr hno
    by_cases hlen : toSizeT s.capacity ≤ s.cacheList.length
    · obtain ⟨n, hl⟩ := getLast?_of_full hpos hlen
      exact ⟨_, access_miss_full d hm hlen hl⟩
    · exact ⟨_, access_miss_room d hm (by omega)⟩

/-! ## Sequences of calls -/

theorem toSizeT_of_pos {c : Int} (hpos : 0 < c) (hmax : c ≤ INT_MAX) :
    (toSizeT c : Int) = c := by
  unfold toSizeT
  unfold INT_MAX at hmax
  rw [Int.emod_eq_of_lt (by omega) (by omega)]
  omega

theorem step_inv {s t : LRUCache} (hs : Inv s) {op : Op} (h : step s op = some t) :
    Inv t := by
  cases op with
  | access a d =>
    simp only [step, Option.map_eq_some'] at h
    obtain ⟨o, ho, rfl⟩ := h
    exact inv_access hs ho
  | reset =>
    simp only [step, Option.some.injEq] at h
    subst h
    exact inv_reset s

theorem step_capacity {s t : LRUCache} {op : Op} (h : step s op = some t) :
    t.capacity = s.capacity := by
  cases op with
  | access a d =>
    simp only [step, Option.map_eq_some'] at h
    obtain ⟨o, ho, rfl⟩ := h
    exact access_capacity ho
  | reset =>
    simp only [step, Option.some.injEq] at h
    subst h
    rfl

theorem step_defined {s : LRUCache} (hs : Inv s) (hpos : 0 < toSizeT s.capacity)
    (op : Op) : ∃ t, step s op = some t := by
  cases op with
  | access a d =>
    obtain ⟨o, ho⟩ := access_defined hs hpos a d
    exact ⟨o.state, by simp [step, ho]⟩
  | reset => exact ⟨s.reset, rfl⟩

theorem run_inv {s t : LRUCache} (hs : Inv s) {ops : List Op} (h : run s ops = some t) :
    Inv t ∧ t.capacity = s.capacity := by
  induction ops generalizing s with
  | nil =>
    simp only [run, Option.some.injEq] at h
    subst h
    exact ⟨hs, rfl⟩
  | cons op ops ih =>
    simp only [run, Option.bind_eq_some] at h
    obtain ⟨u, hu, ht⟩ := h
    have := ih (step_inv hs hu) ht
    exact ⟨this.1, this.2.trans (step_capacity hu)⟩

theorem run_defined {s : LRUCache} (hs : Inv s) (hpos : 0 < toSizeT s.capacity)
    (ops : List Op) : ∃ t, run s ops = some t := by
  induction ops generalizing s with
  | nil => exact ⟨s, rfl⟩
  | cons op ops ih =>
    obtain ⟨u, hu⟩ := step_defined hs hpos op
    obtain ⟨t, ht⟩ := ih (step_inv hs hu) (by rw [step_capacity hu]; exact hpos)
    exact ⟨t, by simp [run, hu, ht]⟩

theorem reachable_inv {c : Int} {s : LRUCache} (h : Reachable c s) :
    Inv s ∧ s.capacity = c := by
  obtain ⟨ops, hops⟩ := h
  exact run_inv (inv_new c) hops

theorem toSizeT_pos {c : Int} (hpos : 0 < c) (hmax : c ≤ INT_MAX) : 0 < toSizeT c := by
  have := toSizeT_of_pos hpos hmax
  omega

theorem mem_snapshot {s : LRUCache} {b : CacheBlock} :
    b ∈ s.snapshot ↔ ∃ n ∈ s.cacheList, n.block = b := by
  simp [LRUCache.snapshot]

/-! ## Capacity bound -/

/-- C1: for a capacity `c > 0` (an `int`) and every sequence of `access` and `reset`
calls on `LRUCache(c)`, after every call (every prefix `ops.take k` of the sequence)
the calls made so far have a defined result and the length of `cacheList` is at
most `c`. -/
theorem capacity_bound (c : Int) (hpos : 0 < c) (hmax : c ≤ INT_MAX) (ops : List Op)
    (k : Nat) :
    ∃ s, run (LRUCache.new c) (ops.take k) = some s ∧ (s.cacheList.length : Int) ≤ c := by
  obtain ⟨s, hs⟩ := run_defined (inv_new c) (toSizeT_pos hpos hmax) (ops.take k)
  refine ⟨s, hs, ?_⟩
  have h := run_inv (inv_new c) hs
  have h1 := h.1.sizeOk
  rw [h.2] at h1
  have h2 : (toSizeT c : Int) = c := toSizeT_of_pos hpos hmax
  simp only [LRUCache.new] at h1
  omega

theorem capacity_bound_witness :
    (0 : Int) < 2 ∧ (2 : Int) ≤ INT_MAX ∧
    ∃ s, run (LRUCache.new 2)
        (List.take 4 [Op.access 1 10, Op.access 2 20, Op.access 3 30, Op.access 1 (-1),
          Op.reset, Op.access 4 (-1)]) = some s ∧
      (s.cacheList.length : Int) ≤ 2 :=
  ⟨by decide, by decide, capacity_bound 2 (by decide) (by decide) _ 4⟩

/-! ## Eviction -/

/-- C2: in a reachable state of `LRUCache(c)`, `c > 0`, that holds `c` blocks, a call
`access(a, d)` for an address that is not resident has a result, prints a miss that
evicts the address of the last block of the snapshot taken before the call, and
leaves as snapshot the new block `(a, value)` followed by the previous snapshot
without its last block, in the same order; the evicted address is no longer
resident. -/
theorem eviction_choice (c : Int) (hpos : 0 < c) (hmax : c ≤ INT_MAX) (s : LRUCache)
    (hs : Reachable c s) (hfull : (s.cacheList.length : Int) = c) (a d : Int)
    (hna : ∀ b ∈ s.snapshot, b.address ≠ a) :
    ∃ last o, s.snapshot = s.snapshot.dropLast ++ [last] ∧
      s.access a d = some o ∧
      o.event = Event.miss a (some last.address) o.value ∧
      o.value = (if d = -1 then wrap32 (a * 10) else d) ∧
      o.state.snapshot = ⟨a, o.value⟩ :: s.snapshot.dropLast ∧
      (∀ b ∈ o.state.snapshot, b.address ≠ last.address) := by
  obtain ⟨hinv, hcap⟩ := reachable_inv hs
  have hsz : (toSizeT s.capacity : Int) = c := by
    rw [hcap]; exact toSizeT_of_pos hpos hmax
  have hno : ∀ n ∈ s.cacheList, n.block.address ≠ a := by
    intro n hn
    exact hna n.block (mem_snapshot.mpr ⟨n, hn, rfl⟩)
  have hm := (map_none_iff hinv a).mpr hno
  have hlen : toSizeT s.capacity ≤ s.cacheList.length := by omega
  obtain ⟨n, hl⟩ := getLast?_of_full (by omega) hlen
  have hcat := dropLast_concat_of_getLast? hl
  refine ⟨n.block, _, ?_, access_miss_full d hm hlen hl, rfl, rfl, ?_, ?_⟩
  · simp only [LRUCache.snapshot]
    rw [← List.map_dropLast]
    conv_lhs => rw [← hcat]
    simp
  · simp [LRUCache.snapshot, pushFront]
  · intro b hb
    simp only [LRUCache.snapshot, pushFront, List.map_cons, List.mem_cons] at hb
    have hnl : n ∈ s.cacheList := by rw [← hcat]; simp
    rcases hb with rfl | hb
    · exact fun he => hno n hnl he.symm
    · obtain ⟨m, hm', rfl⟩ := List.mem_map.mp hb
      have hnd := hinv.addrNodup
      rw [← hcat, List.map_append, List.nodup_append] at hnd
      intro he
      exact hnd.2.2 (List.mem_map_of_mem (fun n => n.block.address) hm') (by simp [he])

theorem reachable_twoBlocks : Reachable 2 twoBlocks :=
  ⟨[Op.access 1 10, Op.access 2 20], rfl⟩

theorem reachable_oneBlock : Reachable 2 oneBlock :=
  ⟨[Op.access 1 10], rfl⟩

theorem eviction_choice_witness :
    (0 : Int) < 2 ∧ (2 : Int) ≤ INT_MAX ∧ (twoBlocks.cacheList.length : Int) = 2 ∧
    (∀ b ∈ twoBlocks.snapshot, b.address ≠ 3) ∧
    ∃ last o, twoBlocks.snapshot = twoBlocks.snapshot.dropLast ++ [last] ∧
      twoBlocks.access 3 30 = some o ∧
      o.event = Event.miss 3 (some last.address) o.value ∧
      o.value = (if (30 : Int) = -1 then wrap32 (3 * 10) else 30) ∧
      o.state.snapshot = ⟨3, o.value⟩ :: twoBlocks.snapshot.dropLast ∧
      (∀ b ∈ o.state.snapshot, b.address ≠ last.address) :=
  ⟨by decide, by decide, by decide, by decide,
   eviction_choice 2 (by decide) (by decide) twoBlocks
     ⟨[Op.access 1 10, Op.access 2 20], rfl⟩ (by decide) 3 30 (by decide)⟩

/-! ## The cases of a call -/

theorem access_cases {s : LRUCache} (hs : Inv s) {a d : Int} {o : Outcome}
    (h : s.access a d = some o) :
    (∃ n ∈ s.cacheList, n.block.address = a ∧
      o = ⟨n.block.data, Event.hit a n.block.data,
        { capacity := s.capacity, hits := wrap32 (s.hits + 1), misses := s.misses,
          totalAccesses := wrap32 (s.totalAccesses + 1),
          cacheList := pushFront (listErase s.cacheList n.it) n.block,
          cacheMap := mapAssign s.cacheMap a (freshIt (listErase s.cacheList n.it)) }⟩) ∨
    ((∀ n ∈ s.cacheList, n.block.address ≠ a) ∧
      s.cacheList.length < toSizeT s.capacity ∧
      o = ⟨if d = -1 then wrap32 (a * 10) else d,
        Event.miss a none (if d = -1 then wrap32 (a * 10) else d),
        { capacity := s.capacity, hits := s.hits, misses := wrap32 (s.misses + 1),
          totalAccesses := wrap32 (s.totalAccesses + 1),
          cacheList := pushFront s.cacheList ⟨a, if d = -1 then wrap32 (a * 10) else d⟩,
          cacheMap := mapAssign s.cacheMap a (freshIt s.cacheList) }⟩) ∨
    ((∀ n ∈ s.cacheList, n.block.address ≠ a) ∧
      toSizeT s.capacity ≤ s.cacheList.length ∧
      ∃ n, s.cacheList.getLast? = some n ∧
      o = ⟨if d = -1 then wrap32 (a * 10) else d,
        Event.miss a (some n.block.address) (if d = -1 then wrap32 (a * 10) else d),
        { capacity := s.capacity, hits := s.hits, misses := wrap32 (s.misses + 1),
          totalAccesses := wrap32 (s.totalAccesses + 1),
          cacheList := pushFront s.cacheList.dropLast
            ⟨a, if d = -1 then wrap32 (a * 10) else d⟩,
          cacheMap := mapAssign (mapErase s.cacheMap n.block.address) a
            (freshIt s.cacheList.dropLast) }⟩) := by
  by_cases hres : ∃ n ∈ s.cacheList, n.block.address = a
  · obtain ⟨n, hn, rfl⟩ := hres
    rw [access_of_mem hs hn d] at h
    cases h
    exact Or.inl ⟨n, hn, rfl, rfl⟩
  · have hno : ∀ n ∈ s.cacheList, n.block.address ≠ a := by
      intro n hn he
      exact hres ⟨n, hn, he⟩
    have hm := (map_none_iff hs a).mpr hno
    by_cases hlen : toSizeT s.capacity ≤ s.cacheList.length
    · cases hl : s.cacheList.getLast? with
      | none =>
        rw [access_miss_empty d hm hlen (List.getLast?_eq_none_iff.mp hl)] at h
        cases h
      | some n =>
        rw [access_miss_full d hm hlen hl] at h
        cases h
        exact Or.inr (Or.inr ⟨hno, hlen, n, rfl, rfl⟩)
    · rw [access_miss_room d hm (by omega)] at h
      cases h
      exact Or.inr (Or.inl ⟨hno, by omega, rfl⟩)

/-- After a call with a result, the first block of the snapshot is the accessed
address with the returned value. -/
theorem access_head {s : LRUCache} (hs : Inv s) {a d : Int} {o : Outcome}
    (h : s.access a d = some o) : o.state.snapshot.head? = some ⟨a, o.value⟩ := by
  rcases access_cases hs h with ⟨n, _, rfl, rfl⟩ | ⟨_, _, rfl⟩ | ⟨_, _, n, _, rfl⟩
  · simp [LRUCache.snapshot, pushFront]
  · simp [LRUCache.snapshot, pushFront]
  · simp [LRUCache.snapshot, pushFront]

/-! ## Most recently used position -/

/-- C3: in a reachable state of `LRUCache(c)`, `c > 0`, every call `access(a, d)` has
a result, and afterwards the block at position 0 of the snapshot has address `a`
and as value the integer the call returned. -/
theorem mru_correct (c : Int) (hpos : 0 < c) (hmax : c ≤ INT_MAX) (s : LRUCache)
    (hs : Reachable c s) (a d : Int) :
    ∃ o, s.access a d = some o ∧ o.state.snapshot.head? = some ⟨a, o.value⟩ := by
  obtain ⟨hinv, hcap⟩ := reachable_inv hs
  obtain ⟨o, ho⟩ := access_defined hinv (by rw [hcap]; exact toSizeT_pos hpos hmax) a d
  exact ⟨o, ho, access_head hinv ho⟩

theorem mru_correct_witness :
    (0 : Int) < 2 ∧ (2 : Int) ≤ INT_MAX ∧ Reachable 2 twoBlocks ∧
    ∃ o, twoBlocks.access 1 77 = some o ∧ o.state.snapshot.head? = some ⟨1, o.value⟩ :=
  ⟨by decide, by decide, reachable_twoBlocks,
   mru_correct 2 (by decide) (by decide) twoBlocks reachable_twoBlocks 1 77⟩

/-! ## Hits -/

theorem data_of_mem_snapshot {s : LRUCache} (hs : Inv s) {a v w : Int}
    (hv : (⟨a, v⟩ : CacheBlock) ∈ s.snapshot) (hw : (⟨a, w⟩ : CacheBlock) ∈ s.snapshot) :
    v = w := by
  obtain ⟨n, hn, hnb⟩ := mem_snapshot.mp hv
  obtain ⟨m, hm, hmb⟩ := mem_snapshot.mp hw
  have : n = m := eq_of_address_eq hs.addrNodup hn hm (by rw [hnb, hmb])
  subst this
  rw [hnb] at hmb
  cases hmb
  rfl

/-- A hit on a resident block `(a, v)`: the result, whatever the data argument. -/
theorem access_resident {s : LRUCache} (hs : Inv s) {a v : Int}
    (hres : (⟨a, v⟩ : CacheBlock) ∈ s.snapshot) (d : Int) :
    ∃ o, s.access a d = some o ∧ o.value = v ∧ o.event = Event.hit a v ∧
      Inv o.state ∧ (⟨a, v⟩ : CacheBlock) ∈ o.state.snapshot := by
  obtain ⟨n, hn, hnb⟩ := mem_snapshot.mp hres
  have ha : n.block.address = a := by rw [hnb]
  have hv : n.block.data = v := by rw [hnb]
  have h := access_of_mem hs hn d
  rw [ha, hv] at h
  refine ⟨_, h, rfl, rfl, ?_, ?_⟩
  · have := inv_hit hs hn
    rw [ha] at this
    exact this
  · simp [LRUCache.snapshot, pushFront, hnb]

theorem runValues_resident {s : LRUCache} (hs : Inv s) {a v : Int}
    (hres : (⟨a, v⟩ : CacheBlock) ∈ s.snapshot) (ds : List Int) :
    runValues s (ds.map (Op.access a)) = some (List.replicate ds.length v) := by
  induction ds generalizing s with
  | nil => rfl
  | cons d ds ih =>
    obtain ⟨o, ho, hv, _, hinv, hmem⟩ := access_resident hs hres d
    simp [runValues, ho, ih hinv hmem, hv, List.replicate_succ]

/-- C4: in a reachable state (any capacity) in which address `a` is resident with
value `v`, a call `access(a, d)` returns `v` for every data argument `d`, is printed
as a hit with value `v`, and afterwards the block of `a` is `(a, v)` and no block of
`a` has another value; any number of consecutive calls `access(a, d_1)`, ...,
`access(a, d_k)` return `v` each. -/
theorem hit_keeps_value (c : Int) (s : LRUCache) (hs : Reachable c s) (a v : Int)
    (hres : (⟨a, v⟩ : CacheBlock) ∈ s.snapshot) (d : Int) (ds : List Int) :
    (∃ o, s.access a d = some o ∧ o.value = v ∧ o.event = Event.hit a v ∧
      (⟨a, v⟩ : CacheBlock) ∈ o.state.snapshot ∧
      ∀ w, (⟨a, w⟩ : CacheBlock) ∈ o.state.snapshot → w = v) ∧
    runValues s (ds.map (Op.access a)) = some (List.replicate ds.length v) := by
  obtain ⟨hinv, _⟩ := reachable_inv hs
  obtain ⟨o, ho, hv, he, hinv2, hmem⟩ := access_resident hinv hres d
  exact ⟨⟨o, ho, hv, he, hmem, fun w hw => data_of_mem_snapshot hinv2 hw hmem⟩,
    runValues_resident hinv hres ds⟩

theorem hit_keeps_value_witness :
    Reachable 2 twoBlocks ∧ (⟨1, 10⟩ : CacheBlock) ∈ twoBlocks.snapshot ∧
    (∃ o, twoBlocks.access 1 99 = some o ∧ o.value = 10 ∧ o.event = Event.hit 1 10 ∧
      (⟨1, 10⟩ : CacheBlock) ∈ o.state.snapshot ∧
      ∀ w, (⟨1, w⟩ : CacheBlock) ∈ o.state.snapshot → w = 10) ∧
    runValues twoBlocks ([5, -1, 10].map (Op.access 1)) =
      some (List.replicate [5, -1, 10].length 10) :=
  ⟨reachable_twoBlocks, by decide,
   hit_keeps_value 2 twoBlocks reachable_twoBlocks 1 10 (by decide) 99 [5, -1, 10]⟩

/-! ## Misses -/

theorem wrap32_of_range {x : Int} (hlo : INT_MIN ≤ x) (hhi : x ≤ INT_MAX) : wrap32 x = x := by
  unfold INT_MIN at hlo
  unfold INT_MAX at hhi
  unfold wrap32
  omega

/-- C5 (as amended): in a reachable state of `LRUCache(c)`, `c > 0`, a call
`access(a, d)` for an address that is not resident has a result; the returned value
is stored as the block of `a` (and no other value is); it is `d` when `d` is not the
sentinel `-1`, and the `int` product `a * 10` when `d` is `-1`: the product reduced
to 32 bits, which is the mathematical `a * 10` whenever that is an `int`. -/
theorem miss_value (c : Int) (hpos : 0 < c) (hmax : c ≤ INT_MAX) (s : LRUCache)
    (hs : Reachable c s) (a d : Int) (hna : ∀ b ∈ s.snapshot, b.address ≠ a) :
    ∃ o, s.access a d = some o ∧
      (⟨a, o.value⟩ : CacheBlock) ∈ o.state.snapshot ∧
      (∀ w, (⟨a, w⟩ : CacheBlock) ∈ o.state.snapshot → w = o.value) ∧
      (d ≠ -1 → o.value = d) ∧
      (d = -1 → o.value = wrap32 (a * 10)) ∧
      (d = -1 → INT_MIN ≤ a * 10 → a * 10 ≤ INT_MAX → o.value = a * 10) := by
  obtain ⟨hinv, hcap⟩ := reachable_inv hs
  obtain ⟨o, ho⟩ := access_defined hinv (by rw [hcap]; exact toSizeT_pos hpos hmax) a d
  have hhead := access_head hinv ho
  have hmem : (⟨a, o.value⟩ : CacheBlock) ∈ o.state.snapshot := List.mem_of_mem_head? hhead
  have hval : o.value = if d = -1 then wrap32 (a * 10) else d := by
    rcases access_cases hinv ho with ⟨n, hn, hna', _⟩ | ⟨_, _, rfl⟩ | ⟨_, _, n, _, rfl⟩
    · exact absurd hna' (hna n.block (mem_snapshot.mpr ⟨n, hn, rfl⟩))
    · rfl
    · rfl
  refine ⟨o, ho, hmem, fun w hw => data_of_mem_snapshot (inv_access hinv ho) hw hmem,
    ?_, ?_, ?_⟩
  · intro hd
    rw [hval, if_neg hd]
  · intro hd
    rw [hval, if_pos hd]
  · intro hd hlo hhi
    rw [hval, if_pos hd, wrap32_of_range hlo hhi]

theorem miss_value_witness :
    (0 : Int) < 2 ∧ (2 : Int) ≤ INT_MAX ∧ Reachable 2 oneBlock ∧
    (∀ b ∈ oneBlock.snapshot, b.address ≠ 4096) ∧
    ∃ o, oneBlock.access 4096 (-1) = some o ∧
      (⟨4096, o.value⟩ : CacheBlock) ∈ o.state.snapshot ∧
      (∀ w, (⟨4096, w⟩ : CacheBlock) ∈ o.state.snapshot → w = o.value) ∧
      ((-1 : Int) ≠ -1 → o.value = -1) ∧
      ((-1 : Int) = -1 → o.value = wrap32 (4096 * 10)) ∧
      ((-1 : Int) = -1 → INT_MIN ≤ (4096 : Int) * 10 → (4096 : Int) * 10 ≤ INT_MAX →
        o.value = 4096 * 10) :=
  ⟨by decide, by decide, reachable_oneBlock, by decide,
   miss_value 2 (by decide) (by decide) oneBlock reachable_oneBlock 4096 (-1) (by decide)⟩

theorem miss_value_counterexample :
    Reachable 1 (LRUCache.new 1) ∧
    (∀ b ∈ (LRUCache.new 1).snapshot, b.address ≠ 2147483647) ∧
    ∃ o, (LRUCache.new 1).access 2147483647 (-1) = some o ∧ o.value = -10 ∧
      o.state.snapshot = [⟨2147483647, -10⟩] ∧ o.value ≠ 2147483647 * 10 :=
  ⟨⟨[], rfl⟩, by decide, _, rfl, by decide, by decide, by decide⟩

/-- C10: in a reachable state of `LRUCache(c)`, `c > 0`, that holds fewer than `c`
blocks, a call `access(a, d)` for an address that is not resident has a result,
prints a miss without eviction, and leaves as snapshot the new block `(a, value)`
followed by the whole previous snapshot; the number of blocks grows by one. -/
theorem no_eviction_unless_full (c : Int) (hpos : 0 < c) (hmax : c ≤ INT_MAX)
    (s : LRUCache) (hs : Reachable c s) (hroom : (s.cacheList.length : Int) < c)
    (a d : Int) (hna : ∀ b ∈ s.snapshot, b.address ≠ a) :
    ∃ o, s.access a d = some o ∧
      o.event = Event.miss a none o.value ∧
      o.value = (if d = -1 then wrap32 (a * 10) else d) ∧
      o.state.snapshot = ⟨a, o.value⟩ :: s.snapshot ∧
      o.state.cacheList.length = s.cacheList.length + 1 := by
  obtain ⟨hinv, hcap⟩ := reachable_inv hs
  have hsz : (toSizeT s.capacity : Int) = c := by
    rw [hcap]; exact toSizeT_of_pos hpos hmax
  have hno : ∀ n ∈ s.cacheList, n.block.address ≠ a := by
    intro n hn
    exact hna n.block (mem_snapshot.mpr ⟨n, hn, rfl⟩)
  have hm := (map_none_iff hinv a).mpr hno
  refine ⟨_, access_miss_room d hm (by omega), rfl, rfl, ?_, ?_⟩
  · simp [LRUCache.snapshot, pushFront]
  · simp [pushFront]

theorem no_eviction_unless_full_witness :
    (0 : Int) < 2 ∧ (2 : Int) ≤ INT_MAX ∧ Reachable 2 oneBlock ∧
    (oneBlock.cacheList.length : Int) < 2 ∧ (∀ b ∈ oneBlock.snapshot, b.address ≠ 7) ∧
    ∃ o, oneBlock.access 7 70 = some o ∧
      o.event = Event.miss 7 none o.value ∧
      o.value = (if (70 : Int) = -1 then wrap32 (7 * 10) else 70) ∧
      o.state.snapshot = ⟨7, o.value⟩ :: oneBlock.snapshot ∧
      o.state.cacheList.length = oneBlock.cacheList.length + 1 :=
  ⟨by decide, by decide, reachable_oneBlock, by decide, by decide,
   no_eviction_unless_full 2 (by decide) (by decide) oneBlock reachable_oneBlock
     (by decide) 7 70 (by decide)⟩

/-! ## Invariants of reachable states -/

theorem toSizeT_pos_of_ne {c : Int} (hne : c ≠ 0) (hmin : INT_MIN ≤ c) (hmax : c ≤ INT_MAX) :
    0 < toSizeT c := by
  unfold INT_MIN at hmin
  unfold INT_MAX at hmax
  unfold toSizeT
  omega

/-- C6: for a capacity `c > 0` and every sequence of `access` and `reset` calls on
`LRUCache(c)`, the sequence has a defined final state, and in it no two blocks of
`cacheList` have the same address. -/
theorem address_unique (c : Int) (hpos : 0 < c) (hmax : c ≤ INT_MAX) (ops : List Op) :
    ∃ s, run (LRUCache.new c) ops = some s ∧
      s.cacheList.Pairwise (fun x y => x.block.address ≠ y.block.address) ∧
      (s.snapshot.map CacheBlock.address).Nodup := by
  obtain ⟨s, hs⟩ := run_defined (inv_new c) (toSizeT_pos hpos hmax) ops
  have h := (run_inv (inv_new c) hs).1.addrNodup
  refine ⟨s, hs, ?_, ?_⟩
  · exact (List.pairwise_map.mp h)
  · simpa [LRUCache.snapshot, List.map_map, Function.comp_def] using h

theorem address_unique_witness :
    (0 : Int) < 2 ∧ (2 : Int) ≤ INT_MAX ∧
    ∃ s, run (LRUCache.new 2)
        [Op.access 1 10, Op.access 2 20, Op.access 1 30, Op.access 3 (-1), Op.reset,
          Op.access 2 5, Op.access 2 6] = some s ∧
      s.cacheList.Pairwise (fun x y => x.block.address ≠ y.block.address) ∧
      (s.snapshot.map CacheBlock.address).Nodup :=
  ⟨by decide, by decide, address_unique 2 (by decide) (by decide) _⟩

/-- C7: for a capacity `c > 0` and every sequence of `access` and `reset` calls on
`LRUCache(c)`, in the final state `cacheMap` has an entry for an address exactly
when a block with that address is in `cacheList`; the iterator of the entry
designates a node of the list whose block has that address; and a further call
`access(a, d)` prints a hit exactly when `a` is in the snapshot taken before it. -/
theorem index_consistent (c : Int) (hpos : 0 < c) (hmax : c ≤ INT_MAX) (ops : List Op) :
    ∃ s, run (LRUCache.new c) ops = some s ∧
      (∀ a, (∃ i, s.cacheMap a = some i) ↔ ∃ b ∈ s.snapshot, b.address = a) ∧
      (∀ a i, s.cacheMap a = some i →
        ∃ b, listDeref s.cacheList i = some b ∧ b.address = a ∧ b ∈ s.snapshot) ∧
      (∀ a d, ∃ o, s.access a d = some o ∧
        ((∃ v, o.event = Event.hit a v) ↔ ∃ b ∈ s.snapshot, b.address = a)) := by
  obtain ⟨s, hs⟩ := run_defined (inv_new c) (toSizeT_pos hpos hmax) ops
  obtain ⟨hinv, hcap⟩ := run_inv (inv_new c) hs
  refine ⟨s, hs, ?_, ?_, ?_⟩
  · intro a
    constructor
    · rintro ⟨i, hi⟩
      obtain ⟨n, hn, _, ha⟩ := (hinv.mapOk a i).mp hi
      exact ⟨n.block, mem_snapshot.mpr ⟨n, hn, rfl⟩, ha⟩
    · rintro ⟨b, hb, ha⟩
      obtain ⟨n, hn, rfl⟩ := mem_snapshot.mp hb
      exact ⟨n.it, (hinv.mapOk a n.it).mpr ⟨n, hn, rfl, ha⟩⟩
  · intro a i hi
    obtain ⟨n, hn, hni, ha⟩ := (hinv.mapOk a i).mp hi
    refine ⟨n.block, ?_, ha, mem_snapshot.mpr ⟨n, hn, rfl⟩⟩
    rw [← hni]
    exact listDeref_of_mem hinv.itNodup hn
  · intro a d
    obtain ⟨o, ho⟩ := access_defined hinv
      (by rw [hcap]; exact toSizeT_pos hpos hmax) a d
    refine ⟨o, ho, ?_⟩
    rcases access_cases hinv ho with ⟨n, hn, ha, rfl⟩ | ⟨hno, _, rfl⟩ | ⟨hno, _, n, _, rfl⟩
    · exact ⟨fun _ => ⟨n.block, mem_snapshot.mpr ⟨n, hn, rfl⟩, ha⟩, fun _ => ⟨_, rfl⟩⟩
    · constructor
      · rintro ⟨v, hv⟩
        cases hv
      · rintro ⟨b, hb, ha⟩
        obtain ⟨m, hm, rfl⟩ := mem_snapshot.mp hb
        exact absurd ha (hno m hm)
    · constructor
      · rintro ⟨v, hv⟩
        cases hv
      · rintro ⟨b, hb, ha⟩
        obtain ⟨m, hm, rfl⟩ := mem_snapshot.mp hb
        exact absurd ha (hno m hm)

theorem index_consistent_witness :
    (0 : Int) < 2 ∧ (2 : Int) ≤ INT_MAX ∧
    ∃ s, run (LRUCache.new 2)
        [Op.access 1 10, Op.access 2 20, Op.access 1 30, Op.access 3 (-1)] = some s ∧
      (∀ a, (∃ i, s.cacheMap a = some i) ↔ ∃ b ∈ s.snapshot, b.address = a) ∧
      (∀ a i, s.cacheMap a = some i →
        ∃ b, listDeref s.cacheList i = some b ∧ b.address = a ∧ b ∈ s.snapshot) ∧
      (∀ a d, ∃ o, s.access a d = some o ∧
        ((∃ v, o.event = Event.hit a v) ↔ ∃ b ∈ s.snapshot, b.address = a)) :=
  ⟨by decide, by decide, index_consistent 2 (by decide) (by decide) _⟩

/-! ## Reset -/

/-- C9: in a reachable state of `LRUCache(c)` (any capacity), `reset()` yields the
state of a freshly constructed `LRUCache(c)`: empty snapshot, empty map, the three
counters 0 and capacity `c`; hence every sequence of calls made afterwards has the
same final state (snapshot and counters included) and the same returned integers
as on a fresh `LRUCache(c)`. -/
theorem reset_restores (c : Int) (s : LRUCache) (hs : Reachable c s) :
    s.reset = LRUCache.new c ∧
    s.reset.snapshot = [] ∧ (∀ a, s.reset.cacheMap a = none) ∧
    s.reset.totalAccesses = 0 ∧ s.reset.hits = 0 ∧ s.reset.misses = 0 ∧
    s.reset.capacity = c ∧
    ∀ ops, run s.reset ops = run (LRUCache.new c) ops ∧
      runValues s.reset ops = runValues (LRUCache.new c) ops := by
  obtain ⟨_, hcap⟩ := reachable_inv hs
  have h : s.reset = LRUCache.new c := by
    simp [LRUCache.reset, LRUCache.new, hcap]
  refine ⟨h, ?_, ?_, ?_, ?_, ?_, ?_, ?_⟩
  · rfl
  · intro a; rfl
  · rfl
  · rfl
  · rfl
  · exact hcap
  · intro ops
    rw [h]
    exact ⟨rfl, rfl⟩

theorem reset_restores_witness :
    Reachable 2 twoBlocks ∧
    twoBlocks.reset = LRUCache.new 2 ∧
    twoBlocks.reset.snapshot = [] ∧ (∀ a, twoBlocks.reset.cacheMap a = none) ∧
    twoBlocks.reset.totalAccesses = 0 ∧ twoBlocks.reset.hits = 0 ∧
    twoBlocks.reset.misses = 0 ∧ twoBlocks.reset.capacity = 2 ∧
    ∀ ops, run twoBlocks.reset ops = run (LRUCache.new 2) ops ∧
      runValues twoBlocks.reset ops = runValues (LRUCache.new 2) ops :=
  ⟨reachable_twoBlocks, reset_restores 2 twoBlocks reachable_twoBlocks⟩

/-! ## Counters -/

theorem wrap32_add_left (x y : Int) : wrap32 (wrap32 x + y) = wrap32 (x + y) := by
  unfold wrap32
  have h : (x + 2147483648) % 4294967296 - 2147483648 + y + 2147483648 =
      (x + 2147483648) % 4294967296 + y := by ring
  rw [h, Int.emod_add_emod]
  congr 2
  ring

theorem wrap32_eq_self {x : Int} (hlo : -2147483648 ≤ x) (hhi : x ≤ 2147483647) :
    wrap32 x = x := by
  unfold wrap32
  omega

/-- The counters after a call with a result, as 32-bit integers. -/
theorem access_counters {s : LRUCache} (hs : Inv s) {a d : Int} {o : Outcome}
    (h : s.access a d = some o) :
    o.state.totalAccesses = wrap32 (s.totalAccesses + 1) ∧
    ((∃ b ∈ s.snapshot, b.address = a) →
      o.state.hits = wrap32 (s.hits + 1) ∧ o.state.misses = s.misses) ∧
    ((∀ b ∈ s.snapshot, b.address ≠ a) →
      o.state.misses = wrap32 (s.misses + 1) ∧ o.state.hits = s.hits) := by
  rcases access_cases hs h with ⟨n, hn, ha, rfl⟩ | ⟨hno, _, rfl⟩ | ⟨hno, _, n, _, rfl⟩
  · refine ⟨rfl, fun _ => ⟨rfl, rfl⟩, fun hna => ?_⟩
    exact absurd ha (hna n.block (mem_snapshot.mpr ⟨n, hn, rfl⟩))
  · refine ⟨rfl, ?_, fun _ => ⟨rfl, rfl⟩⟩
    rintro ⟨b, hb, ha⟩
    obtain ⟨m, hm, rfl⟩ := mem_snapshot.mp hb
    exact absurd ha (hno m hm)
  · refine ⟨rfl, ?_, fun _ => ⟨rfl, rfl⟩⟩
    rintro ⟨b, hb, ha⟩
    obtain ⟨m, hm, rfl⟩ := mem_snapshot.mp hb
    exact absurd ha (hno m hm)

/-- A call counts either one hit or one miss. -/
theorem access_counters_cases {s : LRUCache} (hs : Inv s) {a d : Int} {o : Outcome}
    (h : s.access a d = some o) :
    o.state.totalAccesses = wrap32 (s.totalAccesses + 1) ∧
    ((o.state.hits = wrap32 (s.hits + 1) ∧ o.state.misses = s.misses) ∨
      (o.state.misses = wrap32 (s.misses + 1) ∧ o.state.hits = s.hits)) := by
  have hc := access_counters hs h
  refine ⟨hc.1, ?_⟩
  by_cases hres : ∃ b ∈ s.snapshot, b.address = a
  · exact Or.inl (hc.2.1 hres)
  · exact Or.inr (hc.2.2 (fun b hb he => hres ⟨b, hb, he⟩))

theorem countersOf_new (c : Int) : CountersOf (LRUCache.new c) 0 :=
  ⟨0, 0, rfl, rfl, rfl, rfl⟩

theorem countersOf_reset (s : LRUCache) : CountersOf s.reset 0 :=
  ⟨0, 0, rfl, rfl, rfl, rfl⟩

theorem access_countersOf {s : LRUCache} (hs : Inv s) {n : Nat} (hn : CountersOf s n)
    {a d : Int} {o : Outcome} (h : s.access a d = some o) : CountersOf o.state (n + 1) := by
  obtain ⟨x, y, hxy, hx, hy, ht⟩ := hn
  obtain ⟨htot, hcase⟩ := access_counters_cases hs h
  have ht2 : o.state.totalAccesses = wrap32 ((n + 1 : Nat) : Int) := by
    rw [htot, ht, wrap32_add_left]
    push_cast
    rfl
  rcases hcase with ⟨h1, h2⟩ | ⟨h1, h2⟩
  · refine ⟨x + 1, y, by omega, ?_, by rw [h2, hy], ht2⟩
    rw [h1, hx, wrap32_add_left]
    push_cast
    rfl
  · refine ⟨x, y + 1, by omega, by rw [h2, hx], ?_, ht2⟩
    rw [h1, hy, wrap32_add_left]
    push_cast
    rfl

theorem run_countersOf {s t : LRUCache} (hs : Inv s) {n : Nat} (hn : CountersOf s n)
    {ops : List Op} (h : run s ops = some t) : CountersOf t (sinceReset n ops) := by
  induction ops generalizing s n with
  | nil =>
    simp only [run, Option.some.injEq] at h
    subst h
    exact hn
  | cons op ops ih =>
    simp only [run, Option.bind_eq_some] at h
    obtain ⟨u, hu, ht⟩ := h
    cases op with
    | reset =>
      simp only [step, Option.some.injEq] at hu
      subst hu
      exact ih (inv_reset s) (countersOf_reset s) ht
    | access a d =>
      have hinv := step_inv hs hu
      simp only [step, Option.map_eq_some'] at hu
      obtain ⟨o, ho, rfl⟩ := hu
      exact ih hinv (access_countersOf hs hn ho) ht

/-- While at most `2^31 - 1` calls of `access` were counted, the counters are the
numbers themselves. -/
theorem countersOf_exact {s : LRUCache} {n : Nat} (hn : CountersOf s n)
    (hle : n ≤ 2147483647) :
    0 ≤ s.hits ∧ 0 ≤ s.misses ∧ s.totalAccesses = s.hits + s.misses ∧
      s.totalAccesses = n := by
  obtain ⟨x, y, hxy, hx, hy, ht⟩ := hn
  rw [wrap32_eq_self (by omega) (by omega)] at hx hy ht
  omega

/-- C8 (as amended): after every sequence of `access` and `reset` calls on a freshly
constructed cache `totalAccesses` equals `hits + misses` as a 32-bit integer, and
`totalAccesses = hits + misses` holds as an equation between integers whenever at
most `2^31 - 1` calls of `access` were made since the construction or the last
`reset`; the sequence has a final state whenever the capacity is an `int` other
than 0. -/
theorem counter_consistency (c : Int) (ops : List Op) :
    (∀ s, run (LRUCache.new c) ops = some s →
      s.totalAccesses = wrap32 (s.hits + s.misses) ∧
      (sinceReset 0 ops ≤ 2147483647 → s.totalAccesses = s.hits + s.misses)) ∧
    (c ≠ 0 → INT_MIN ≤ c → c ≤ INT_MAX → ∃ s, run (LRUCache.new c) ops = some s) :=
  ⟨fun _ hs => ⟨(run_inv (inv_new c) hs).1.counters,
      fun hle => (countersOf_exact (run_countersOf (inv_new c) (countersOf_new c) hs) hle).2.2.1⟩,
   fun hne hmin hmax => run_defined (inv_new c) (toSizeT_pos_of_ne hne hmin hmax) ops⟩

theorem counter_consistency_witness :
    (twoBlocks.totalAccesses = wrap32 (twoBlocks.hits + twoBlocks.misses) ∧
      twoBlocks.totalAccesses = twoBlocks.hits + twoBlocks.misses) ∧
    ∃ s, run (LRUCache.new 2) [Op.access 1 10, Op.access 2 20] = some s :=
  ⟨⟨((counter_consistency 2 [Op.access 1 10, Op.access 2 20]).1 twoBlocks rfl).1,
    ((counter_consistency 2 [Op.access 1 10, Op.access 2 20]).1 twoBlocks rfl).2
      (by decide)⟩,
   (counter_consistency 2 [Op.access 1 10, Op.access 2 20]).2
     (by decide) (by decide) (by decide)⟩

theorem run_cons_access {s : LRUCache} {a d : Int} {o : Outcome}
    (h : s.access a d = some o) (ops : List Op) :
    run s (Op.access a d :: ops) = run o.state ops := by
  simp [run, step, h]

theorem run_append (s : LRUCache) (xs ys : List Op) :
    run s (xs ++ ys) = (run s xs).bind (fun t => run t ys) := by
  induction xs generalizing s with
  | nil => rfl
  | cons x xs ih =>
    simp only [List.cons_append, run]
    cases step s x with
    | none => rfl
    | some u => simp [ih]

/-- A miss in a cache of capacity 1 leaves the new block alone in the cache. -/
theorem access_miss_single {s : LRUCache} (hs : Inv s) (hcap : toSizeT s.capacity = 1)
    {a : Int} (hna : ∀ b ∈ s.snapshot, b.address ≠ a) :
    ∃ o, s.access a 0 = some o ∧ Inv o.state ∧ o.state.capacity = s.capacity ∧
      o.state.snapshot = [⟨a, 0⟩] ∧ o.state.misses = wrap32 (s.misses + 1) ∧
      o.state.hits = s.hits ∧ o.state.totalAccesses = wrap32 (s.totalAccesses + 1) := by
  obtain ⟨o, ho⟩ := access_defined hs (by omega) a 0
  have hc := access_counters hs ho
  have hm := hc.2.2 hna
  refine ⟨o, ho, inv_access hs ho, access_capacity ho, ?_, hm.1, hm.2, hc.1⟩
  have hsz := hs.sizeOk
  rcases access_cases hs ho with ⟨n, hn, ha, _⟩ | ⟨_, hroom, rfl⟩ | ⟨_, hfull, n, _, rfl⟩
  · exact absurd ha (hna n.block (mem_snapshot.mpr ⟨n, hn, rfl⟩))
  · have hnil : s.cacheList = [] := List.length_eq_zero.mp (by omega)
    simp [LRUCache.snapshot, pushFront, hnil]
  · have hnil : s.cacheList.dropLast = [] :=
      List.length_eq_zero.mp (by rw [List.length_dropLast]; omega)
    simp [LRUCache.snapshot, pushFront, hnil]

/-- Repeated calls for a resident address are hits: only `hits` and `totalAccesses`
move, as 32-bit integers. -/
theorem run_repeat_hit {s : LRUCache} (hs : Inv s) {a v : Int}
    (hres : (⟨a, v⟩ : CacheBlock) ∈ s.snapshot) (d : Int) (k : Nat) (x y : Int)
    (hx : s.hits = wrap32 x) (hy : s.totalAccesses = wrap32 y) :
    ∃ t, run s (List.replicate k (Op.access a d)) = some t ∧ Inv t ∧
      (⟨a, v⟩ : CacheBlock) ∈ t.snapshot ∧ t.hits = wrap32 (x + k) ∧
      t.misses = s.misses ∧ t.totalAccesses = wrap32 (y + k) := by
  induction k generalizing s x y with
  | zero => exact ⟨s, rfl, hs, hres, by simpa using hx, rfl, by simpa using hy⟩
  | succ k ih =>
    obtain ⟨o, ho, _, _, hinv, hmem⟩ := access_resident hs hres d
    have hc := access_counters hs ho
    have hh := hc.2.1 ⟨_, hres, rfl⟩
    have hx2 : o.state.hits = wrap32 (x + 1) := by
      rw [hh.1, hx, wrap32_add_left]
    have hy2 : o.state.totalAccesses = wrap32 (y + 1) := by
      rw [hc.1, hy, wrap32_add_left]
    obtain ⟨t, ht, hti, htm, hth, htmiss, htt⟩ := ih hinv hmem (x + 1) (y + 1) hx2 hy2
    refine ⟨t, by rw [List.replicate_succ, run_cons_access ho]; exact ht, hti, htm, ?_,
      by rw [htmiss, hh.2], ?_⟩
    · rw [hth]
      push_cast
      congr 1
      omega
    · rw [htt]
      push_cast
      congr 1
      omega

/-- The counters of `LRUCache(1)` after `k + 1` calls `access(1, 0)`: one miss and
`k` hits. -/
theorem run_same_address (k : Nat) :
    ∃ t, run (LRUCache.new 1) (List.replicate (k + 1) (Op.access 1 0)) = some t ∧
      Inv t ∧ (⟨1, 0⟩ : CacheBlock) ∈ t.snapshot ∧ t.hits = wrap32 k ∧ t.misses = 1 ∧
      t.totalAccesses = wrap32 (1 + k) := by
  obtain ⟨o, ho, hinv, _, hsnap, hm, hh, htot⟩ :=
    @access_miss_single (LRUCache.new 1) (inv_new 1) (by decide) 1
      (by intro b hb; simp [LRUCache.snapshot, LRUCache.new] at hb)
  obtain ⟨t, ht, hti, htm, hth, htmiss, htt⟩ :=
    @run_repeat_hit o.state hinv 1 0 (by rw [hsnap]; simp) 0 k 0 1
      (by rw [hh]; rfl) (by rw [htot]; rfl)
  refine ⟨t, ?_, hti, htm, ?_, ?_, htt⟩
  · rw [List.replicate_succ, run_cons_access ho]
    exact ht
  · simpa using hth
  · rw [htmiss, hm]
    rfl

theorem counter_consistency_counterexample :
    ∃ s, run (LRUCache.new 1) (List.replicate 2147483648 (Op.access 1 0)) = some s ∧
      s.totalAccesses = -2147483648 ∧ s.hits + s.misses = 2147483648 ∧
      s.totalAccesses ≠ s.hits + s.misses := by
  obtain ⟨t, ht, _, _, hh, hm, htot⟩ := run_same_address 2147483647
  have h1 : t.totalAccesses = -2147483648 := by
    rw [htot]
    simp only [wrap32]
    norm_num
  have h2 : t.hits + t.misses = 2147483648 := by
    rw [hh, hm]
    simp only [wrap32]
    norm_num
  exact ⟨t, ht, h1, h2, by omega⟩

/-- Over calls without `reset` no counter decreases while `totalAccesses`, counted
from exact non-negative counters, stays within `2^31 - 1`. -/
theorem run_counters_le {s t : LRUCache} (hs : Inv s) {ops : List Op}
    (hnr : ∀ op ∈ ops, op ≠ Op.reset) (hh : 0 ≤ s.hits) (hm : 0 ≤ s.misses)
    (htot : s.totalAccesses = s.hits + s.misses)
    (hb : s.totalAccesses + ops.length ≤ 2147483647) (h : run s ops = some t) :
    s.totalAccesses ≤ t.totalAccesses ∧ s.hits ≤ t.hits ∧ s.misses ≤ t.misses := by
  induction ops generalizing s with
  | nil =>
    simp only [run, Option.some.injEq] at h
    subst h
    exact ⟨le_refl _, le_refl _, le_refl _⟩
  | cons op ops ih =>
    simp only [run, Option.bind_eq_some] at h
    obtain ⟨u, hu, ht⟩ := h
    have hinv := step_inv hs hu
    cases op with
    | reset => exact absurd rfl (hnr Op.reset (List.mem_cons_self _ _))
    | access a d =>
      simp only [step, Option.map_eq_some'] at hu
      obtain ⟨o, ho, rfl⟩ := hu
      obtain ⟨h1, h2⟩ := access_counters_cases hs ho
      simp only [List.length_cons, Nat.cast_add, Nat.cast_one] at hb
      rw [wrap32_eq_self (by omega) (by omega)] at h1
      rcases h2 with ⟨h3, h4⟩ | ⟨h3, h4⟩
      · rw [wrap32_eq_self (by omega) (by omega)] at h3
        have hrest := ih hinv (fun x hx => hnr x (List.mem_cons_of_mem _ hx))
          (by omega) (by omega) (by omega) (by omega) ht
        omega
      · rw [wrap32_eq_self (by omega) (by omega)] at h3
        have hrest := ih hinv (fun x hx => hnr x (List.mem_cons_of_mem _ hx))
          (by omega) (by omega) (by omega) (by omega) ht
        omega

/-- C11 (as amended): after a sequence of calls on a freshly constructed cache
(any capacity), a call `access(a, d)` with a result adds 1 to `totalAccesses` as a
32-bit integer, and 1 to `hits` (leaving `misses`) when `a` was resident, else 1 to
`misses` (leaving `hits`); when fewer than `2^31 - 1` calls of `access` were made
since the construction or the last `reset`, each of these is an increase by exactly
1; and over further calls without `reset` that keep that number at most `2^31 - 1`
none of the three counters decreases.  The call has a result whenever the capacity
is an `int` other than 0. -/
theorem counter_step (c : Int) (ops : List Op) (s : LRUCache)
    (hrun : run (LRUCache.new c) ops = some s) (a d : Int) :
    (∀ o, s.access a d = some o →
      (o.state.totalAccesses = wrap32 (s.totalAccesses + 1) ∧
        ((∃ b ∈ s.snapshot, b.address = a) →
          o.state.hits = wrap32 (s.hits + 1) ∧ o.state.misses = s.misses) ∧
        ((∀ b ∈ s.snapshot, b.address ≠ a) →
          o.state.misses = wrap32 (s.misses + 1) ∧ o.state.hits = s.hits)) ∧
      (sinceReset 0 ops < 2147483647 →
        o.state.totalAccesses = s.totalAccesses + 1 ∧
        ((∃ b ∈ s.snapshot, b.address = a) →
          o.state.hits = s.hits + 1 ∧ o.state.misses = s.misses) ∧
        ((∀ b ∈ s.snapshot, b.address ≠ a) →
          o.state.misses = s.misses + 1 ∧ o.state.hits = s.hits))) ∧
    (∀ more t, (∀ op ∈ more, op ≠ Op.reset) → run s more = some t →
      sinceReset 0 ops + more.length ≤ 2147483647 →
      s.totalAccesses ≤ t.totalAccesses ∧ s.hits ≤ t.hits ∧ s.misses ≤ t.misses) ∧
    (c ≠ 0 → INT_MIN ≤ c → c ≤ INT_MAX → ∃ o, s.access a d = some o) := by
  obtain ⟨hinv, hcap⟩ := run_inv (inv_new c) hrun
  have hg := run_countersOf (inv_new c) (countersOf_new c) hrun
  refine ⟨fun o ho => ?_, fun more t hnr ht hle => ?_, fun hne hmin hmax => ?_⟩
  · have hc := access_counters hinv ho
    refine ⟨hc, fun hlt => ?_⟩
    obtain ⟨h0, m0, htot, hn⟩ := countersOf_exact hg (by omega)
    obtain ⟨h1, h2, h3⟩ := hc
    refine ⟨?_, fun hres => ?_, fun hna => ?_⟩
    · rw [h1, wrap32_eq_self (by omega) (by omega)]
    · obtain ⟨h4, h5⟩ := h2 hres
      refine ⟨?_, h5⟩
      rw [h4, wrap32_eq_self (by omega) (by omega)]
    · obtain ⟨h4, h5⟩ := h3 hna
      refine ⟨?_, h5⟩
      rw [h4, wrap32_eq_self (by omega) (by omega)]
  · obtain ⟨h0, m0, htot, hn⟩ := countersOf_exact hg (by omega)
    exact run_counters_le hinv hnr h0 m0 htot (by omega) ht
  · exact access_defined hinv (by
      rw [hcap]; exact toSizeT_pos_of_ne hne hmin hmax) a d

theorem counter_step_witness :
    run (LRUCache.new 2) [Op.access 1 10, Op.access 2 20] = some twoBlocks ∧
    sinceReset 0 [Op.access 1 10, Op.access 2 20] < 2147483647 ∧
    (∃ o, twoBlocks.access 1 (-1) = some o ∧
      o.state.totalAccesses = twoBlocks.totalAccesses + 1 ∧
      o.state.hits = twoBlocks.hits + 1 ∧ o.state.misses = twoBlocks.misses) ∧
    (∀ more t, (∀ op ∈ more, op ≠ Op.reset) → run twoBlocks more = some t →
      sinceReset 0 [Op.access 1 10, Op.access 2 20] + more.length ≤ 2147483647 →
      twoBlocks.totalAccesses ≤ t.totalAccesses ∧ twoBlocks.hits ≤ t.hits ∧
        twoBlocks.misses ≤ t.misses) :=
  have h := counter_step 2 [Op.access 1 10, Op.access 2 20] twoBlocks rfl 1 (-1)
  ⟨rfl, by decide,
   match h.2.2 (by decide) (by decide) (by decide) with
   | ⟨o, ho⟩ =>
     ⟨o, ho, ((h.1 o ho).2 (by decide)).1,
       (((h.1 o ho).2 (by decide)).2.1 ⟨⟨1, 10⟩, by decide, rfl⟩).1,
       (((h.1 o ho).2 (by decide)).2.1 ⟨⟨1, 10⟩, by decide, rfl⟩).2⟩,
   h.2.1⟩

theorem counter_step_counterexample :
    ∃ s o, run (LRUCache.new 1) (List.replicate 2147483647 (Op.access 1 0)) = some s ∧
      s.access 1 0 = some o ∧ s.totalAccesses = 2147483647 ∧
      o.state.totalAccesses = -2147483648 ∧
      o.state.totalAccesses ≠ s.totalAccesses + 1 ∧
      o.state.totalAccesses < s.totalAccesses := by
  obtain ⟨t, ht, hinv, hmem, _, _, htot⟩ := run_same_address 2147483646
  obtain ⟨o, ho, _, _, _, _⟩ := access_resident hinv hmem 0
  have h1 : t.totalAccesses = 2147483647 := by
    rw [htot]
    simp only [wrap32]
    norm_num
  have h2 : o.state.totalAccesses = -2147483648 := by
    rw [(access_counters hinv ho).1, h1]
    simp only [wrap32]
    norm_num
  exact ⟨t, o, ht, ho, h1, h2, by omega, by omega⟩

/-! ## The demonstration of `runDemo` -/

/-- C12: on `LRUCache(4)` the first four calls of `runDemo` are misses without
eviction and leave the addresses `[0x4000, 0x3000, 0x2000, 0x1000]`; the fifth call
`access(0x2000)` is a hit that returns 200 and leaves
`[0x2000, 0x4000, 0x3000, 0x1000]`; the sixth call `access(0x5000, 500)` is a miss
that evicts `0x1000` and leaves `[0x5000, 0x2000, 0x4000, 0x3000]`. -/
theorem demo_trace :
    runDemo.take 6 =
      [Op.access 0x1000 100, Op.access 0x2000 200, Op.access 0x3000 300,
       Op.access 0x4000 400, Op.access 0x2000 (-1), Op.access 0x5000 500] ∧
    runEvents (LRUCache.new 4) (runDemo.take 4) =
      some [Event.miss 0x1000 none 100, Event.miss 0x2000 none 200,
        Event.miss 0x3000 none 300, Event.miss 0x4000 none 400] ∧
    (run (LRUCache.new 4) (runDemo.take 4)).map
        (fun s => s.snapshot.map CacheBlock.address) =
      some [0x4000, 0x3000, 0x2000, 0x1000] ∧
    runEvents (LRUCache.new 4) (runDemo.take 5) =
      some [Event.miss 0x1000 none 100, Event.miss 0x2000 none 200,
        Event.miss 0x3000 none 300, Event.miss 0x4000 none 400,
        Event.hit 0x2000 200] ∧
    runValues (LRUCache.new 4) (runDemo.take 5) = some [100, 200, 300, 400, 200] ∧
    (run (LRUCache.new 4) (runDemo.take 5)).map
        (fun s => s.snapshot.map CacheBlock.address) =
      some [0x2000, 0x4000, 0x3000, 0x1000] ∧
    runEvents (LRUCache.new 4) (runDemo.take 6) =
      some [Event.miss 0x1000 none 100, Event.miss 0x2000 none 200,
        Event.miss 0x3000 none 300, Event.miss 0x4000 none 400,
        Event.hit 0x2000 200, Event.miss 0x5000 (some 0x1000) 500] ∧
    (run (LRUCache.new 4) (runDemo.take 6)).map
        (fun s => s.snapshot.map CacheBlock.address) =
      some [0x5000, 0x2000, 0x4000, 0x3000] := by
  refine ⟨?_, ?_, ?_, ?_, ?_, ?_, ?_, ?_⟩ <;> decide

/-- C13: on `LRUCache(4)`, after the first six calls of `runDemo` the counters are
`totalAccesses = 6`, `hits = 1` and `misses = 5`; the hit rate is the fraction 1/6,
which `displayStats` shows as 100/6 = 50/3 percent. -/
theorem demo_counters :
    ∃ s, run (LRUCache.new 4) (runDemo.take 6) = some s ∧
      s.totalAccesses = 6 ∧ s.hits = 1 ∧ s.misses = 5 ∧
      (s.hits : Rat) / (s.totalAccesses : Rat) = 1 / 6 ∧
      s.hitRate = some (50 / 3) := by
  have h : ∃ s, run (LRUCache.new 4) (runDemo.take 6) = some s ∧
      s.totalAccesses = 6 ∧ s.hits = 1 ∧ s.misses = 5 := ⟨_, rfl, rfl, rfl, rfl⟩
  obtain ⟨s, hs, ht, hh, hm⟩ := h
  refine ⟨s, hs, ht, hh, hm, ?_, ?_⟩
  · rw [hh, ht]
    norm_num
  · simp only [LRUCache.hitRate, ht, hh]
    norm_num

/-! ## Rates of `displayStats` -/

/-- C14 (as amended): after a sequence of calls on a freshly constructed cache in
which at most `2^31 - 1` calls of `access` were made since the construction or the
last `reset`, and with `totalAccesses > 0`, `displayStats` computes both rates, and
in exact rationals the miss rate `misses / totalAccesses` is
`1 - hits / totalAccesses`; the two exact percentages add up to 100. -/
theorem miss_rate_complement (c : Int) (ops : List Op) (s : LRUCache)
    (hrun : run (LRUCache.new c) ops = some s) (hle : sinceReset 0 ops ≤ 2147483647)
    (hpos : 0 < s.totalAccesses) :
    (s.misses : Rat) / (s.totalAccesses : Rat) =
      1 - (s.hits : Rat) / (s.totalAccesses : Rat) ∧
    ∃ h m, s.hitRate = some h ∧ s.missRate = some m ∧ m / 100 = 1 - h / 100 ∧
      h + m = 100 := by
  have hg := run_countersOf (inv_new c) (countersOf_new c) hrun
  obtain ⟨_, _, htot, _⟩ := countersOf_exact hg hle
  have hne : (s.totalAccesses : Rat) ≠ 0 := by
    have : s.totalAccesses ≠ 0 := by omega
    exact_mod_cast this
  have hsum : (s.totalAccesses : Rat) = (s.hits : Rat) + (s.misses : Rat) := by
    exact_mod_cast htot
  have hfrac : (s.misses : Rat) / (s.totalAccesses : Rat) =
      1 - (s.hits : Rat) / (s.totalAccesses : Rat) := by
    field_simp
    linarith
  refine ⟨hfrac, (s.hits : Rat) / (s.totalAccesses : Rat) * 100,
    (s.misses : Rat) / (s.totalAccesses : Rat) * 100,
    by simp [LRUCache.hitRate, hpos], by simp [LRUCache.missRate, hpos], ?_, ?_⟩
  · field_simp
    linarith
  · field_simp
    linarith

theorem miss_rate_complement_witness :
    run (LRUCache.new 2) [Op.access 1 10, Op.access 2 20] = some twoBlocks ∧
    sinceReset 0 [Op.access 1 10, Op.access 2 20] ≤ 2147483647 ∧
    0 < twoBlocks.totalAccesses ∧
    (twoBlocks.misses : Rat) / (twoBlocks.totalAccesses : Rat) =
      1 - (twoBlocks.hits : Rat) / (twoBlocks.totalAccesses : Rat) ∧
    ∃ h m, twoBlocks.hitRate = some h ∧ twoBlocks.missRate = some m ∧
      m / 100 = 1 - h / 100 ∧ h + m = 100 :=
  ⟨rfl, by decide, by decide,
   miss_rate_complement 2 [Op.access 1 10, Op.access 2 20] twoBlocks rfl (by decide)
     (by decide)⟩

/-- In a cache of capacity 1 that holds at most the address 2, the calls
`access(1, 0)`, `access(2, 0)` are two misses and leave the block `(2, 0)`. -/
theorem run_pair {s : LRUCache} (hs : Inv s) (hcap : toSizeT s.capacity = 1)
    (hsnap : ∀ b ∈ s.snapshot, b.address = 2) (x y : Int)
    (hx : s.misses = wrap32 x) (hy : s.totalAccesses = wrap32 y) :
    ∃ t, run s [Op.access 1 0, Op.access 2 0] = some t ∧ Inv t ∧
      toSizeT t.capacity = 1 ∧ t.snapshot = [⟨2, 0⟩] ∧ t.misses = wrap32 (x + 2) ∧
      t.hits = s.hits ∧ t.totalAccesses = wrap32 (y + 2) := by
  obtain ⟨o1, ho1, hinv1, hc1, hs1, hm1, hh1, ht1⟩ :=
    @access_miss_single s hs hcap 1 (by
      intro b hb he
      have := hsnap b hb
      omega)
  obtain ⟨o2, ho2, hinv2, hc2, hs2, hm2, hh2, ht2⟩ :=
    @access_miss_single o1.state hinv1 (by rw [hc1]; exact hcap) 2 (by
      intro b hb he
      rw [hs1] at hb
      simp only [List.mem_singleton] at hb
      subst hb
      simp at he)
  refine ⟨o2.state, by rw [run_cons_access ho1, run_cons_access ho2]; rfl, hinv2,
    by rw [hc2, hc1]; exact hcap, hs2, ?_, by rw [hh2, hh1], ?_⟩
  · rw [hm2, hm1, hx, wrap32_add_left, add_assoc, wrap32_add_left]
    congr 1
  · rw [ht2, ht1, hy, wrap32_add_left, add_assoc, wrap32_add_left]
    congr 1

theorem run_alternate {s : LRUCache} (hs : Inv s) (hcap : toSizeT s.capacity = 1)
    (hsnap : s.snapshot = [⟨2, 0⟩]) (k : Nat) (x y : Int)
    (hx : s.misses = wrap32 x) (hy : s.totalAccesses = wrap32 y) :
    ∃ t, run s (alternate k) = some t ∧ Inv t ∧ toSizeT t.capacity = 1 ∧
      t.snapshot = [⟨2, 0⟩] ∧ t.misses = wrap32 (x + 2 * k) ∧ t.hits = s.hits ∧
      t.totalAccesses = wrap32 (y + 2 * k) := by
  induction k generalizing s x y with
  | zero => exact ⟨s, rfl, hs, hcap, hsnap, by simpa using hx, rfl, by simpa using hy⟩
  | succ k ih =>
    obtain ⟨u, hu, hinvu, hcu, hsu, hmu, hhu, htu⟩ :=
      run_pair hs hcap (by
        intro b hb
        rw [hsnap] at hb
        simp only [List.mem_singleton] at hb
        subst hb
        rfl) x y hx hy
    obtain ⟨t, ht, hinvt, hct, hst, hmt, hht, htt⟩ :=
      ih hinvu hcu hsu (x + 2) (y + 2) hmu htu
    have hrun : run s (alternate (k + 1)) = some t := by
      have h := run_append s [Op.access 1 0, Op.access 2 0] (alternate k)
      simp only [List.cons_append, List.nil_append] at h
      rw [alternate, h, hu]
      exact ht
    refine ⟨t, hrun, hinvt, hct, hst, ?_, by rw [hht, hhu], ?_⟩
    · rw [hmt]
      push_cast
      congr 1
      omega
    · rw [htt]
      push_cast
      congr 1
      omega

/-- The counters of `LRUCache(1)` after `k + 1` rounds of `access(1, 0)`,
`access(2, 0)` followed by `j` calls `access(2, 0)`: `2 * (k + 1)` misses and `j`
hits, as 32-bit integers. -/
theorem run_alternate_then_hits (k j : Nat) :
    ∃ t, run (LRUCache.new 1)
        (alternate (k + 1) ++ List.replicate j (Op.access 2 0)) = some t ∧
      t.misses = wrap32 (2 * (k + 1)) ∧ t.hits = wrap32 j ∧
      t.totalAccesses = wrap32 (2 * (k + 1) + j) := by
  obtain ⟨u, hu, hinvu, hcu, hsu, hmu, hhu, htu⟩ :=
    @run_pair (LRUCache.new 1) (inv_new 1) (by decide)
      (by intro b hb; simp [LRUCache.snapshot, LRUCache.new] at hb) 0 0 rfl rfl
  obtain ⟨w, hw, hinvw, hcw, hsw, hmw, hhw, htw⟩ :=
    run_alternate hinvu hcu hsu k (0 + 2) (0 + 2) hmu htu
  have hw0 : w.hits = wrap32 0 := by
    rw [hhw, hhu]
    rfl
  obtain ⟨t, ht, _, _, hth, htm, htt⟩ :=
    @run_repeat_hit w hinvw 2 0 (by rw [hsw]; simp) 0 j 0 (0 + 2 + 2 * (k : Int)) hw0 htw
  have hfirst : run (LRUCache.new 1) (alternate (k + 1)) = some w := by
    have h := run_append (LRUCache.new 1) [Op.access 1 0, Op.access 2 0] (alternate k)
    simp only [List.cons_append, List.nil_append] at h
    rw [alternate, h, hu]
    exact hw
  refine ⟨t, ?_, ?_, ?_, ?_⟩
  · rw [run_append, hfirst]
    exact ht
  · rw [htm, hmw]
    push_cast
    congr 1
    omega
  · rw [hth]
    congr 1
    omega
  · rw [htt]
    push_cast
    congr 1
    omega

theorem miss_rate_complement_counterexample :
    ∃ s, run (LRUCache.new 1)
        (alternate 1073741824 ++ List.replicate 2147483649 (Op.access 2 0)) = some s ∧
      s.totalAccesses = 1 ∧ s.hits = -2147483647 ∧ s.misses = -2147483648 ∧
      0 < s.totalAccesses ∧
      (s.misses : Rat) / (s.totalAccesses : Rat) ≠
        1 - (s.hits : Rat) / (s.totalAccesses : Rat) := by
  obtain ⟨t, ht, hm, hh, htot⟩ := run_alternate_then_hits 1073741823 2147483649
  have h1 : t.totalAccesses = 1 := by
    rw [htot]
    simp only [wrap32]
    norm_num
  have h2 : t.hits = -2147483647 := by
    rw [hh]
    simp only [wrap32]
    norm_num
  have h3 : t.misses = -2147483648 := by
    rw [hm]
    simp only [wrap32]
    norm_num
  refine ⟨t, ht, h1, h2, h3, by omega, ?_⟩
  rw [h1, h2, h3]
  norm_num

/-! ## The order after a hit -/

theorem listErase_snapshot {s : LRUCache} (hs : Inv s) {n : Node} (hn : n ∈ s.cacheList) :
    (listErase s.cacheList n.it).map Node.block =
      s.snapshot.filter (fun b => decide (b.address ≠ n.block.address)) := by
  rw [listErase_eq_filter hs.itNodup, LRUCache.snapshot, List.filter_map]
  congr 1
  apply List.filter_congr
  intro m hm
  simp only [Function.comp_apply, decide_eq_decide]
  constructor
  · intro h he
    exact h (congrArg Node.it (eq_of_address_eq hs.addrNodup hm hn he))
  · intro h he
    exact h (congrArg (fun x => x.block.address) (eq_of_it_eq hs.itNodup hm hn he))

theorem snapshot_nodup {s : LRUCache} (hs : Inv s) : s.snapshot.Nodup := by
  have h : (s.snapshot.map CacheBlock.address).Nodup := by
    simpa [LRUCache.snapshot, List.map_map, Function.comp_def] using hs.addrNodup
  exact List.Nodup.of_map _ h

theorem snapshot_filter_eq_erase {s : LRUCache} (hs : Inv s) {a v : Int}
    (hres : (⟨a, v⟩ : CacheBlock) ∈ s.snapshot) :
    s.snapshot.filter (fun b => decide (b.address ≠ a)) = s.snapshot.erase ⟨a, v⟩ := by
  rw [(snapshot_nodup hs).erase_eq_filter]
  apply List.filter_congr
  intro b hb
  cases b with
  | mk ba bd =>
    by_cases h : ba = a
    · subst h
      have := data_of_mem_snapshot hs hb hres
      subst this
      simp
    · have hne : (⟨ba, bd⟩ : CacheBlock) ≠ ⟨a, v⟩ := by
        intro he
        cases he
        exact h rfl
      simp [h, hne]

/-- C15: in a reachable state (any capacity) in which `(a, v)` is resident, a call
`access(a, d)` is a hit after which the snapshot is `(a, v)` followed by the previous
snapshot with that block removed: the other blocks are the same blocks (address and
value) in the same relative order, the number of blocks is the same, and the
resident addresses are the same. -/
theorem hit_reorders (c : Int) (s : LRUCache) (hs : Reachable c s) (a v : Int)
    (hres : (⟨a, v⟩ : CacheBlock) ∈ s.snapshot) (d : Int) :
    ∃ o, s.access a d = some o ∧ o.event = Event.hit a v ∧
      o.state.snapshot = ⟨a, v⟩ :: s.snapshot.erase ⟨a, v⟩ ∧
      s.snapshot.erase ⟨a, v⟩ = s.snapshot.filter (fun b => decide (b.address ≠ a)) ∧
      (s.snapshot.erase ⟨a, v⟩).Sublist s.snapshot ∧
      o.state.snapshot.Perm s.snapshot ∧
      o.state.snapshot.length = s.snapshot.length ∧
      (∀ x, (∃ b ∈ o.state.snapshot, b.address = x) ↔ ∃ b ∈ s.snapshot, b.address = x) := by
  obtain ⟨hinv, _⟩ := reachable_inv hs
  obtain ⟨n, hn, hnb⟩ := mem_snapshot.mp hres
  have ha : n.block.address = a := by rw [hnb]
  have hv : n.block.data = v := by rw [hnb]
  have hacc := access_of_mem hinv hn d
  have hsnap := listErase_snapshot hinv hn
  rw [ha] at hacc hsnap
  rw [hv] at hacc
  have hfe := snapshot_filter_eq_erase hinv hres
  have hnew : (⟨a, v⟩ : CacheBlock) :: s.snapshot.erase ⟨a, v⟩ =
      (pushFront (listErase s.cacheList n.it) n.block).map Node.block := by
    simp only [pushFront, List.map_cons, hsnap, hfe, hnb]
  have hperm : ((⟨a, v⟩ : CacheBlock) :: s.snapshot.erase ⟨a, v⟩).Perm s.snapshot :=
    (List.perm_cons_erase hres).symm
  refine ⟨_, hacc, rfl, hnew.symm, hfe.symm, List.erase_sublist _ _, ?_, ?_, ?_⟩
  · show ((pushFront (listErase s.cacheList n.it) n.block).map Node.block).Perm s.snapshot
    rw [← hnew]
    exact hperm
  · show ((pushFront (listErase s.cacheList n.it) n.block).map Node.block).length = _
    rw [← hnew]
    exact hperm.length_eq
  · intro x
    show (∃ b ∈ (pushFront (listErase s.cacheList n.it) n.block).map Node.block, _) ↔ _
    rw [← hnew]
    constructor
    · rintro ⟨b, hb, hx⟩
      exact ⟨b, hperm.subset hb, hx⟩
    · rintro ⟨b, hb, hx⟩
      exact ⟨b, hperm.symm.subset hb, hx⟩

theorem hit_reorders_witness :
    Reachable 2 twoBlocks ∧ (⟨1, 10⟩ : CacheBlock) ∈ twoBlocks.snapshot ∧
    ∃ o, twoBlocks.access 1 55 = some o ∧ o.event = Event.hit 1 10 ∧
      o.state.snapshot = ⟨1, 10⟩ :: twoBlocks.snapshot.erase ⟨1, 10⟩ ∧
      twoBlocks.snapshot.erase ⟨1, 10⟩ =
        twoBlocks.snapshot.filter (fun b => decide (b.address ≠ 1)) ∧
      (twoBlocks.snapshot.erase ⟨1, 10⟩).Sublist twoBlocks.snapshot ∧
      o.state.snapshot.Perm twoBlocks.snapshot ∧
      o.state.snapshot.length = twoBlocks.snapshot.length ∧
      (∀ x, (∃ b ∈ o.state.snapshot, b.address = x) ↔
        ∃ b ∈ twoBlocks.snapshot, b.address = x) :=
  ⟨reachable_twoBlocks, by decide,
   hit_reorders 2 twoBlocks reachable_twoBlocks 1 10 (by decide) 55⟩

/-! ## What a call changes for the other addresses -/

theorem dropLast_address_ne {s : LRUCache} (hs : Inv s) {n : Node}
    (hl : s.cacheList.getLast? = some n) :
    ∀ m ∈ s.cacheList.dropLast, m.block.address ≠ n.block.address := by
  have hcat := dropLast_concat_of_getLast? hl
  have hnd := hs.addrNodup
  rw [← hcat, List.map_append, List.nodup_append] at hnd
  intro m hm he
  exact hnd.2.2 (List.mem_map_of_mem (fun n => n.block.address) hm) (by simp [he])

/-- C16: in a reachable state of `LRUCache(c)`, `c > 0`, a call `access(a, d)` has a
result, and every block `(b, v)` with `b ≠ a` that was resident before is either
resident afterwards with the same value, or it was the last block of the snapshot
before the call, `a` was not resident, the cache held `c` blocks, the call printed a
miss evicting `b`, and `b` is not resident afterwards; every block resident
afterwards with an address other than `a` was resident before. -/
theorem transitions (c : Int) (hpos : 0 < c) (hmax : c ≤ INT_MAX) (s : LRUCache)
    (hs : Reachable c s) (a d : Int) :
    ∃ o, s.access a d = some o ∧
      (∀ b v, b ≠ a → (⟨b, v⟩ : CacheBlock) ∈ s.snapshot →
        (⟨b, v⟩ : CacheBlock) ∈ o.state.snapshot ∨
        (s.snapshot.getLast? = some ⟨b, v⟩ ∧ (∀ x ∈ s.snapshot, x.address ≠ a) ∧
          (s.cacheList.length : Int) = c ∧ o.event = Event.miss a (some b) o.value ∧
          ∀ x ∈ o.state.snapshot, x.address ≠ b)) ∧
      (∀ x ∈ o.state.snapshot, x.address ≠ a → x ∈ s.snapshot) := by
  obtain ⟨hinv, hcap⟩ := reachable_inv hs
  have hsz : (toSizeT s.capacity : Int) = c := by
    rw [hcap]; exact toSizeT_of_pos hpos hmax
  obtain ⟨o, ho⟩ := access_defined hinv (by omega) a d
  refine ⟨o, ho, ?_, ?_⟩
  · intro b v hba hres
    obtain ⟨m, hm, hmb⟩ := mem_snapshot.mp hres
    have hma : m.block.address = b := by rw [hmb]
    rcases access_cases hinv ho with ⟨n, hn, ha, rfl⟩ | ⟨hno, _, rfl⟩ | ⟨hno, hlen, n, hl, rfl⟩
    · left
      have hne : m.it ≠ n.it := by
        intro he
        have := eq_of_it_eq hinv.itNodup hm hn he
        subst this
        exact hba (hma.symm.trans ha)
      have hmem := (mem_listErase hinv.itNodup).mpr ⟨hm, hne⟩
      exact mem_snapshot.mpr ⟨m, List.mem_cons_of_mem _ hmem, hmb⟩
    · left
      exact mem_snapshot.mpr ⟨m, List.mem_cons_of_mem _ hm, hmb⟩
    · have hcat := dropLast_concat_of_getLast? hl
      rw [← hcat, List.mem_append] at hm
      rcases hm with hm | hm
      · left
        exact mem_snapshot.mpr ⟨m, List.mem_cons_of_mem _ hm, hmb⟩
      · right
        simp only [List.mem_singleton] at hm
        subst hm
        have hsize := hinv.sizeOk
        refine ⟨?_, ?_, by omega, ?_, ?_⟩
        · simp [LRUCache.snapshot, hl, hmb]
        · intro x hx
          obtain ⟨k, hk, rfl⟩ := mem_snapshot.mp hx
          exact hno k hk
        · simp [hma]
        · intro x hx
          simp only [LRUCache.snapshot, pushFront, List.map_cons, List.mem_cons] at hx
          rcases hx with rfl | hx
          · exact fun he => hba he.symm
          · obtain ⟨k, hk, rfl⟩ := List.mem_map.mp hx
            rw [← hma]
            exact dropLast_address_ne hinv hl k hk
  · intro x hx hxa
    obtain ⟨k, hk, rfl⟩ := mem_snapshot.mp hx
    rcases access_cases hinv ho with ⟨n, hn, ha, rfl⟩ | ⟨hno, _, rfl⟩ | ⟨hno, hlen, n, hl, rfl⟩
    · simp only [pushFront, List.mem_cons] at hk
      rcases hk with rfl | hk
      · exact absurd ha hxa
      · exact mem_snapshot.mpr ⟨k, ((mem_listErase hinv.itNodup).mp hk).1, rfl⟩
    · simp only [pushFront, List.mem_cons] at hk
      rcases hk with rfl | hk
      · exact absurd rfl hxa
      · exact mem_snapshot.mpr ⟨k, hk, rfl⟩
    · simp only [pushFront, List.mem_cons] at hk
      rcases hk with rfl | hk
      · exact absurd rfl hxa
      · exact mem_snapshot.mpr ⟨k, (List.dropLast_sublist _).subset hk, rfl⟩

theorem transitions_witness :
    (0 : Int) < 2 ∧ (2 : Int) ≤ INT_MAX ∧ Reachable 2 twoBlocks ∧
    ∃ o, twoBlocks.access 3 30 = some o ∧
      (∀ b v, b ≠ 3 → (⟨b, v⟩ : CacheBlock) ∈ twoBlocks.snapshot →
        (⟨b, v⟩ : CacheBlock) ∈ o.state.snapshot ∨
        (twoBlocks.snapshot.getLast? = some ⟨b, v⟩ ∧
          (∀ x ∈ twoBlocks.snapshot, x.address ≠ 3) ∧
          (twoBlocks.cacheList.length : Int) = 2 ∧
          o.event = Event.miss 3 (some b) o.value ∧
          ∀ x ∈ o.state.snapshot, x.address ≠ b)) ∧
      (∀ x ∈ o.state.snapshot, x.address ≠ 3 → x ∈ twoBlocks.snapshot) :=
  ⟨by decide, by decide, reachable_twoBlocks,
   transitions 2 (by decide) (by decide) twoBlocks reachable_twoBlocks 3 30⟩

/-! ## The eviction path -/

/-- C17: in a reachable state of `LRUCache(c)`, `c > 0`, whenever the condition of
the eviction path `cacheList.size() >= capacity` holds, `cacheList` is not empty and
`back()` designates a node; with capacity 0 the first `access` misses, the condition
holds on the empty list, and the call has no defined result. -/
theorem eviction_never_empty :
    (∀ c s, 0 < c → c ≤ INT_MAX → Reachable c s →
      toSizeT s.capacity ≤ s.cacheList.length →
      s.cacheList ≠ [] ∧ ∃ n, s.cacheList.getLast? = some n) ∧
    (∀ a d, (LRUCache.new 0).cacheMap a = none ∧
      toSizeT (LRUCache.new 0).capacity ≤ (LRUCache.new 0).cacheList.length ∧
      (LRUCache.new 0).cacheList = [] ∧ (LRUCache.new 0).access a d = none) := by
  constructor
  · intro c s hpos hmax hs hlen
    obtain ⟨_, hcap⟩ := reachable_inv hs
    have hp : 0 < toSizeT s.capacity := by rw [hcap]; exact toSizeT_pos hpos hmax
    obtain ⟨n, hn⟩ := getLast?_of_full hp hlen
    refine ⟨?_, n, hn⟩
    intro hnil
    rw [hnil] at hn
    cases hn
  · intro a d
    have h0 : toSizeT (LRUCache.new 0).capacity ≤ (LRUCache.new 0).cacheList.length := by
      decide
    exact ⟨rfl, h0, rfl, access_miss_empty d rfl h0 rfl⟩

theorem eviction_never_empty_witness :
    (toSizeT twoBlocks.capacity ≤ twoBlocks.cacheList.length ∧
      twoBlocks.cacheList ≠ [] ∧ ∃ n, twoBlocks.cacheList.getLast? = some n) ∧
    (LRUCache.new 0).access 5 50 = none :=
  ⟨⟨by decide, eviction_never_empty.1 2 twoBlocks (by decide) (by decide)
      reachable_twoBlocks (by decide)⟩,
   (eviction_never_empty.2 5 50).2.2.2⟩

/-! ## Agreement with the reference model -/

theorem keepFirst_nodup (l : List Int) : (keepFirst l).Nodup := by
  induction l with
  | nil => exact List.nodup_nil
  | cons a l ih =>
    simp only [keepFirst, List.nodup_cons]
    refine ⟨?_, ih.filter _⟩
    intro h
    have := (List.mem_filter.mp h).2
    simp at this

theorem take_filter_of_not_mem (a : Int) (K : List Int) (n : Nat) (h : a ∉ K.take n) :
    (K.filter (fun b => decide (b ≠ a))).take n = K.take n := by
  induction K generalizing n with
  | nil => simp
  | cons x K ih =>
    cases n with
    | zero => simp
    | succ n =>
      simp only [List.take_succ_cons, List.mem_cons, not_or] at h
      have hx : x ≠ a := fun he => h.1 he.symm
      rw [List.filter_cons_of_pos (by simpa using hx)]
      simp only [List.take_succ_cons]
      rw [ih n h.2]

theorem take_filter_of_mem (a : Int) (K : List Int) (hK : K.Nodup) (n : Nat)
    (h : a ∈ K.take (n + 1)) :
    (K.filter (fun b => decide (b ≠ a))).take n =
      (K.take (n + 1)).filter (fun b => decide (b ≠ a)) := by
  induction K generalizing n with
  | nil => simp at h
  | cons x K ih =>
    simp only [List.nodup_cons] at hK
    by_cases hx : x = a
    · subst hx
      have hnot : ∀ b ∈ K, decide (b ≠ x) = true := by
        intro b hb
        simp only [ne_eq, decide_not, Bool.not_eq_eq_eq_not, Bool.not_true,
          decide_eq_false_iff_not]
        intro he
        exact hK.1 (he ▸ hb)
      rw [List.filter_cons_of_neg (by simp), List.take_succ_cons,
        List.filter_cons_of_neg (by simp), List.filter_eq_self.mpr hnot]
      symm
      apply List.filter_eq_self.mpr
      intro b hb
      exact hnot b (List.mem_of_mem_take hb)
    · rw [List.filter_cons_of_pos (by simpa using hx), List.take_succ_cons,
        List.filter_cons_of_pos (by simpa using hx)]
      simp only [List.take_succ_cons, List.mem_cons] at h
      rcases h with h | h
      · exact absurd h.symm hx
      · cases n with
        | zero => simp at h
        | succ n =>
          simp only [List.take_succ_cons]
          rw [ih hK.2 n h]

/-- The addresses of the snapshot after a call, when the addresses before are the
first `capacity` elements of a duplicate-free list `K`. -/
theorem access_addresses {s : LRUCache} (hs : Inv s) (hpos : 0 < toSizeT s.capacity)
    {K : List Int} (hK : K.Nodup)
    (hsnap : s.snapshot.map CacheBlock.address = K.take (toSizeT s.capacity))
    {a d : Int} {o : Outcome} (h : s.access a d = some o) :
    o.state.snapshot.map CacheBlock.address =
      (a :: K.filter (fun b => decide (b ≠ a))).take (toSizeT s.capacity) := by
  obtain ⟨k, hk⟩ : ∃ k, toSizeT s.capacity = k + 1 := ⟨toSizeT s.capacity - 1, by omega⟩
  rw [hk] at hsnap ⊢
  rw [List.take_succ_cons]
  have hlen : (s.snapshot.map CacheBlock.address).length = s.cacheList.length := by
    simp [LRUCache.snapshot]
  have hmemK : ∀ m ∈ s.cacheList, m.block.address ∈ K.take (k + 1) := by
    intro m hm
    rw [← hsnap]
    exact List.mem_map_of_mem _ (mem_snapshot.mpr ⟨m, hm, rfl⟩)
  have hnotK : (∀ m ∈ s.cacheList, m.block.address ≠ a) → a ∉ K.take (k + 1) := by
    intro hno hmem
    rw [← hsnap] at hmem
    obtain ⟨b, hb, hba⟩ := List.mem_map.mp hmem
    obtain ⟨m, hm, rfl⟩ := mem_snapshot.mp hb
    exact hno m hm hba
  have hsub : ∀ x, x ∈ K.take k → x ∈ K.take (k + 1) := by
    intro x hx
    have : (K.take k) = (K.take (k + 1)).take k := by
      rw [List.take_take]; simp
    rw [this] at hx
    exact List.mem_of_mem_take hx
  rcases access_cases hs h with ⟨n, hn, ha, rfl⟩ | ⟨hno, hroom, rfl⟩ | ⟨hno, hfull, n, hl, rfl⟩
  · have h1 := listErase_snapshot hs hn
    rw [ha] at h1
    have h2 : (pushFront (listErase s.cacheList n.it) n.block).map Node.block =
        n.block :: s.snapshot.filter (fun b => decide (b.address ≠ a)) := by
      simp only [pushFront, List.map_cons, h1]
    show ((pushFront (listErase s.cacheList n.it) n.block).map Node.block).map
      CacheBlock.address = _
    rw [h2, List.map_cons, ha, take_filter_of_mem a K hK k (ha ▸ hmemK n hn), ← hsnap,
      List.filter_map]
    rfl
  · show ((pushFront s.cacheList _).map Node.block).map CacheBlock.address = _
    have hshort : (K.take (k + 1)).length < k + 1 := by
      rw [← hsnap, hlen]; omega
    have hKlen : K.length ≤ k := by
      rw [List.length_take] at hshort
      omega
    have hKk : K.take k = K := List.take_of_length_le hKlen
    have hKk1 : K.take (k + 1) = K := List.take_of_length_le (by omega)
    rw [take_filter_of_not_mem a K k (fun hx => hnotK hno (hsub a hx)), hKk]
    rw [hKk1] at hsnap
    simp only [pushFront, List.map_cons]
    rw [← hsnap]
    rfl
  · show ((pushFront s.cacheList.dropLast _).map Node.block).map CacheBlock.address = _
    rw [take_filter_of_not_mem a K k (fun hx => hnotK hno (hsub a hx))]
    have hsz := hs.sizeOk
    have hlenK : (K.take (k + 1)).length = k + 1 := by
      rw [← hsnap, hlen]; omega
    have hdrop : (s.snapshot.map CacheBlock.address).dropLast = K.take k := by
      rw [hsnap, List.dropLast_eq_take, hlenK, List.take_take]
      simp
    simp only [pushFront, List.map_cons, List.map_dropLast]
    rw [← hdrop]
    rfl

theorem run_addresses {s : LRUCache} (hs : Inv s) (hpos : 0 < toSizeT s.capacity)
    (history : List Int)
    (hsnap : s.snapshot.map CacheBlock.address =
      referenceLRU (toSizeT s.capacity) history)
    (ops : List Op) (hnr : ∀ op ∈ ops, op ≠ Op.reset) :
    ∃ t, run s ops = some t ∧
      t.snapshot.map CacheBlock.address =
        referenceLRU (toSizeT s.capacity) (history ++ accessHistory ops) := by
  induction ops generalizing s history with
  | nil => exact ⟨s, rfl, by simpa [accessHistory] using hsnap⟩
  | cons op ops ih =>
    cases op with
    | reset => exact absurd rfl (hnr Op.reset (List.mem_cons_self _ _))
    | access a d =>
      obtain ⟨o, ho⟩ := access_defined hs hpos a d
      have hcap := access_capacity ho
      have hstep := access_addresses hs hpos (keepFirst_nodup history.reverse) hsnap ho
      have hnext : o.state.snapshot.map CacheBlock.address =
          referenceLRU (toSizeT o.state.capacity) (history ++ [a]) := by
        rw [hstep, hcap]
        simp [referenceLRU, keepFirst]
      obtain ⟨t, ht, hres⟩ := ih (inv_access hs ho) (by rw [hcap]; exact hpos)
        (history ++ [a]) hnext (fun x hx => hnr x (List.mem_cons_of_mem _ hx))
      refine ⟨t, by simp [run, step, ho, ht], ?_⟩
      rw [hres, hcap]
      simp [accessHistory]

/-- C18: for a capacity `c > 0` and every sequence of `access` calls on
`LRUCache(c)`, the calls have a defined final state, and the addresses of its
snapshot, from most to least recent, are the first `c` elements of the access
history listed most-recent-first with every address kept only at its most recent
occurrence. -/
theorem lru_reference (c : Int) (hpos : 0 < c) (hmax : c ≤ INT_MAX) (ops : List Op)
    (hnr : ∀ op ∈ ops, op ≠ Op.reset) :
    ∃ s, run (LRUCache.new c) ops = some s ∧
      s.snapshot.map CacheBlock.address = referenceLRU c.toNat (accessHistory ops) := by
  have hsz : toSizeT c = c.toNat := by
    have := toSizeT_of_pos hpos hmax
    omega
  have h := run_addresses (inv_new c) (toSizeT_pos hpos hmax) [] (by simp [LRUCache.new,
    LRUCache.snapshot, referenceLRU, keepFirst]) ops hnr
  simpa [LRUCache.new, hsz] using h

theorem lru_reference_witness :
    (0 : Int) < 2 ∧ (2 : Int) ≤ INT_MAX ∧
    (∀ op ∈ [Op.access 1 10, Op.access 2 20, Op.access 1 (-1), Op.access 3 30,
      Op.access 3 31, Op.access 2 (-1)], op ≠ Op.reset) ∧
    ∃ s, run (LRUCache.new 2) [Op.access 1 10, Op.access 2 20, Op.access 1 (-1),
        Op.access 3 30, Op.access 3 31, Op.access 2 (-1)] = some s ∧
      s.snapshot.map CacheBlock.address =
        referenceLRU (2 : Int).toNat (accessHistory [Op.access 1 10, Op.access 2 20,
          Op.access 1 (-1), Op.access 3 30, Op.access 3 31, Op.access 2 (-1)]) :=
  ⟨by decide, by decide, by decide,
   lru_reference 2 (by decide) (by decide) _ (by decide)⟩

/-! ## The sentinel value -/

theorem wrap32_mul_ten_ne (a : Int) : wrap32 (a * 10) ≠ -1 := by
  unfold wrap32
  omega

theorem loaded_ne (a d : Int) : (if d = -1 then wrap32 (a * 10) else d) ≠ -1 := by
  split
  · exact wrap32_mul_ten_ne a
  · assumption

theorem access_no_sentinel {s : LRUCache} (hs : Inv s)
    (hdata : ∀ n ∈ s.cacheList, n.block.data ≠ -1) {a d : Int} {o : Outcome}
    (h : s.access a d = some o) :
    (∀ n ∈ o.state.cacheList, n.block.data ≠ -1) ∧ o.value ≠ -1 := by
  rcases access_cases hs h with ⟨n, hn, _, rfl⟩ | ⟨_, _, rfl⟩ | ⟨_, _, n, _, rfl⟩
  · refine ⟨?_, hdata n hn⟩
    intro m hm
    simp only [pushFront, List.mem_cons] at hm
    rcases hm with rfl | hm
    · exact hdata n hn
    · exact hdata m ((listErase_sublist _ _).subset hm)
  · refine ⟨?_, loaded_ne a d⟩
    intro m hm
    simp only [pushFront, List.mem_cons] at hm
    rcases hm with rfl | hm
    · exact loaded_ne a d
    · exact hdata m hm
  · refine ⟨?_, loaded_ne a d⟩
    intro m hm
    simp only [pushFront, List.mem_cons] at hm
    rcases hm with rfl | hm
    · exact loaded_ne a d
    · exact hdata m ((List.dropLast_sublist _).subset hm)

theorem run_no_sentinel {s t : LRUCache} (hs : Inv s)
    (hdata : ∀ n ∈ s.cacheList, n.block.data ≠ -1) {ops : List Op}
    (h : run s ops = some t) : ∀ n ∈ t.cacheList, n.block.data ≠ -1 := by
  induction ops generalizing s with
  | nil =>
    simp only [run, Option.some.injEq] at h
    subst h
    exact hdata
  | cons op ops ih =>
    simp only [run, Option.bind_eq_some] at h
    obtain ⟨u, hu, ht⟩ := h
    refine ih (step_inv hs hu) ?_ ht
    cases op with
    | reset =>
      simp only [step, Option.some.injEq] at hu
      subst hu
      intro n hn
      simp [LRUCache.reset] at hn
    | access a d =>
      simp only [step, Option.map_eq_some'] at hu
      obtain ⟨o, ho, rfl⟩ := hu
      exact (access_no_sentinel hs hdata ho).1

/-- C19: in a reachable state (any capacity) no resident block has the value `-1`,
and no call of `access` returns `-1`: a data argument `-1` is replaced by
`address * 10`, which is not `-1` as a mathematical integer nor after reduction to
32 bits.  A call has a result whenever the capacity is an `int` other than 0. -/
theorem never_minus_one (c : Int) (s : LRUCache) (hs : Reachable c s) :
    (∀ b ∈ s.snapshot, b.data ≠ -1) ∧
    (∀ a d o, s.access a d = some o → o.value ≠ -1) ∧
    (∀ a : Int, a * 10 ≠ -1 ∧ wrap32 (a * 10) ≠ -1) ∧
    (c ≠ 0 → INT_MIN ≤ c → c ≤ INT_MAX →
      ∀ a d, ∃ o, s.access a d = some o ∧ o.value ≠ -1) := by
  obtain ⟨hinv, hcap⟩ := reachable_inv hs
  obtain ⟨ops, hops⟩ := hs
  have hdata : ∀ n ∈ s.cacheList, n.block.data ≠ -1 :=
    run_no_sentinel (inv_new c) (by intro n hn; simp [LRUCache.new] at hn) hops
  refine ⟨?_, fun a d o ho => (access_no_sentinel hinv hdata ho).2,
    fun a => ⟨by omega, wrap32_mul_ten_ne a⟩, ?_⟩
  · intro b hb
    obtain ⟨n, hn, rfl⟩ := mem_snapshot.mp hb
    exact hdata n hn
  · intro hne hmin hmax a d
    obtain ⟨o, ho⟩ := access_defined hinv
      (by rw [hcap]; exact toSizeT_pos_of_ne hne hmin hmax) a d
    exact ⟨o, ho, (access_no_sentinel hinv hdata ho).2⟩

theorem never_minus_one_witness :
    Reachable 2 twoBlocks ∧
    (∀ b ∈ twoBlocks.snapshot, b.data ≠ -1) ∧
    (∀ a d o, twoBlocks.access a d = some o → o.value ≠ -1) ∧
    (∀ a : Int, a * 10 ≠ -1 ∧ wrap32 (a * 10) ≠ -1) ∧
    ((2 : Int) ≠ 0 → INT_MIN ≤ (2 : Int) → (2 : Int) ≤ INT_MAX →
      ∀ a d, ∃ o, twoBlocks.access a d = some o ∧ o.value ≠ -1) :=
  ⟨reachable_twoBlocks, never_minus_one 2 twoBlocks reachable_twoBlocks⟩

/-! ## Occupancy -/

theorem access_length {s : LRUCache} (hs : Inv s) {a d : Int} {o : Outcome}
    (h : s.access a d = some o) :
    ((∃ b ∈ s.snapshot, b.address = a) →
      o.state.cacheList.length = s.cacheList.length) ∧
    ((∀ b ∈ s.snapshot, b.address ≠ a) →
      o.state.cacheList.length = min (s.cacheList.length + 1) (toSizeT s.capacity)) := by
  have hsz := hs.sizeOk
  rcases access_cases hs h with ⟨n, hn, ha, rfl⟩ | ⟨hno, hroom, rfl⟩ | ⟨hno, hfull, n, hl, rfl⟩
  · have hlen := listErase_length hn
    refine ⟨fun _ => ?_, fun hna => ?_⟩
    · simp only [pushFront, List.length_cons]
      omega
    · exact absurd ha (hna n.block (mem_snapshot.mpr ⟨n, hn, rfl⟩))
  · refine ⟨?_, fun _ => ?_⟩
    · rintro ⟨b, hb, ha⟩
      obtain ⟨m, hm, rfl⟩ := mem_snapshot.mp hb
      exact absurd ha (hno m hm)
    · simp only [pushFront, List.length_cons]
      omega
  · have hne : s.cacheList ≠ [] := by
      intro hnil
      rw [hnil] at hl
      cases hl
    have hp : 0 < s.cacheList.length := List.length_pos.mpr hne
    refine ⟨?_, fun _ => ?_⟩
    · rintro ⟨b, hb, ha⟩
      obtain ⟨m, hm, rfl⟩ := mem_snapshot.mp hb
      exact absurd ha (hno m hm)
    · simp only [pushFront, List.length_cons, List.length_dropLast]
      omega

theorem run_stays_full {s : LRUCache} (hs : Inv s) (hpos : 0 < toSizeT s.capacity)
    (hfull : s.cacheList.length = toSizeT s.capacity) (ops : List Op)
    (hnr : ∀ op ∈ ops, op ≠ Op.reset) :
    ∃ t, run s ops = some t ∧ t.cacheList.length = toSizeT s.capacity := by
  induction ops generalizing s with
  | nil => exact ⟨s, rfl, hfull⟩
  | cons op ops ih =>
    cases op with
    | reset => exact absurd rfl (hnr Op.reset (List.mem_cons_self _ _))
    | access a d =>
      obtain ⟨o, ho⟩ := access_defined hs hpos a d
      have hcap := access_capacity ho
      have hlen := access_length hs ho
      have hfull2 : o.state.cacheList.length = toSizeT o.state.capacity := by
        rw [hcap]
        by_cases hres : ∃ b ∈ s.snapshot, b.address = a
        · rw [hlen.1 hres, hfull]
        · have hna : ∀ b ∈ s.snapshot, b.address ≠ a := fun b hb he => hres ⟨b, hb, he⟩
          rw [hlen.2 hna, hfull]
          omega
      obtain ⟨t, ht, hres⟩ := ih (inv_access hs ho) (by rw [hcap]; exact hpos) hfull2
        (fun x hx => hnr x (List.mem_cons_of_mem _ hx))
      exact ⟨t, by simp [run, step, ho, ht], by rw [hres, hcap]⟩

/-- C20: in a reachable state of `LRUCache(c)`, `c > 0`, that holds `n` blocks, a
call `access(a, d)` has a result after which the cache holds `n` blocks when `a` was
resident and `min (n + 1) c` blocks when it was not, so never fewer than before;
and once the cache holds `c` blocks it holds `c` blocks after every sequence of
further `access` calls. -/
theorem occupancy (c : Int) (hpos : 0 < c) (hmax : c ≤ INT_MAX) (s : LRUCache)
    (hs : Reachable c s) (a d : Int) :
    (∃ o, s.access a d = some o ∧
      ((∃ b ∈ s.snapshot, b.address = a) →
        o.state.cacheList.length = s.cacheList.length) ∧
      ((∀ b ∈ s.snapshot, b.address ≠ a) →
        (o.state.cacheList.length : Int) = min ((s.cacheList.length : Int) + 1) c) ∧
      s.cacheList.length ≤ o.state.cacheList.length) ∧
    ((s.cacheList.length : Int) = c → ∀ ops, (∀ op ∈ ops, op ≠ Op.reset) →
      ∃ t, run s ops = some t ∧ (t.cacheList.length : Int) = c) := by
  obtain ⟨hinv, hcap⟩ := reachable_inv hs
  have hsz : (toSizeT s.capacity : Int) = c := by
    rw [hcap]; exact toSizeT_of_pos hpos hmax
  have hp : 0 < toSizeT s.capacity := by omega
  have hbound := hinv.sizeOk
  constructor
  · obtain ⟨o, ho⟩ := access_defined hinv hp a d
    have hlen := access_length hinv ho
    refine ⟨o, ho, hlen.1, ?_, ?_⟩
    · intro hna
      have := hlen.2 hna
      omega
    · by_cases hres : ∃ b ∈ s.snapshot, b.address = a
      · rw [hlen.1 hres]
      · have hna : ∀ b ∈ s.snapshot, b.address ≠ a := fun b hb he => hres ⟨b, hb, he⟩
        have := hlen.2 hna
        omega
  · intro hfull ops hnr
    obtain ⟨t, ht, hres⟩ := run_stays_full hinv hp (by omega) ops hnr
    exact ⟨t, ht, by omega⟩

theorem occupancy_witness :
    (0 : Int) < 2 ∧ (2 : Int) ≤ INT_MAX ∧ Reachable 2 twoBlocks ∧
    (twoBlocks.cacheList.length : Int) = 2 ∧
    (∃ o, twoBlocks.access 9 (-1) = some o ∧
      ((∃ b ∈ twoBlocks.snapshot, b.address = 9) →
        o.state.cacheList.length = twoBlocks.cacheList.length) ∧
      ((∀ b ∈ twoBlocks.snapshot, b.address ≠ 9) →
        (o.state.cacheList.length : Int) =
          min ((twoBlocks.cacheList.length : Int) + 1) 2) ∧
      twoBlocks.cacheList.length ≤ o.state.cacheList.length) ∧
    (∀ ops, (∀ op ∈ ops, op ≠ Op.reset) →
      ∃ t, run twoBlocks ops = some t ∧ (t.cacheList.length : Int) = 2) :=
  ⟨by decide, by decide, reachable_twoBlocks, by decide,
   (occupancy 2 (by decide) (by decide) twoBlocks reachable_twoBlocks 9 (-1)).1,
   (occupancy 2 (by decide) (by decide) twoBlocks reachable_twoBlocks 9 (-1)).2
     (by decide)⟩

end LRUSim
